import Mathlib

/-!
Chaldeas web client: session stepper and progress graph.

A shallow embedding of `src/target/classes/web/script.js`.

* A JavaScript string is the list of its UTF-16 code units (`JsString`).
* A JSON value is a `Json`. A finite number is kept as the exact decimal that
  `Number::toString` prints (its digits and its exponent, `JsNumber`), so the rounding of
  a literal to a double is not modelled, and the sign of zero is not kept (`-0 === 0`).
  A mapping is the list of its members in the order they are defined; the rule that
  enumerates integer-like keys first is not modelled.
* `JSON.parse` and `JSON.stringify(_, null, 2)` are platform functions the script calls;
  they are embedded after ECMA-262 as `jsonParse` and `jsonStringify`.
* The click handlers are functions from the page before the click and the reply of the
  server to the page after it. A page records the `debugState` object, the advance button,
  the step-info message, what the chart shows and the requests issued so far. The data of
  a reply has the shape of section 6 of the specification: `success` is a boolean,
  `steps` an array or missing, `step` an object or missing.
* Indexes are integers (`Int`): the script only compares them and adds one.
-/

namespace Chaldeas

/-! ## Strings -/

/-- A JavaScript string, as its sequence of UTF-16 code units. -/
abbrev JsString := List Nat

/-- The UTF-16 code units of one character. -/
def charUnits (c : Char) : JsString :=
  if c.toNat < 0x10000 then [c.toNat]
  else [0xD800 + (c.toNat - 0x10000) / 0x400, 0xDC00 + (c.toNat - 0x10000) % 0x400]

/-- The UTF-16 code units of a text. -/
def codeUnits (s : String) : JsString :=
  s.toList.flatMap charUnits

/-- The code units `String.prototype.trim` strips: ECMA-262 WhiteSpace and
LineTerminator. -/
def isTrimSpace (c : Nat) : Bool :=
  c == 0x09 || c == 0x0A || c == 0x0B || c == 0x0C || c == 0x0D || c == 0x20 ||
  c == 0xA0 || c == 0x1680 || (0x2000 ≤ c && c ≤ 0x200A) || c == 0x2028 ||
  c == 0x2029 || c == 0x202F || c == 0x205F || c == 0x3000 || c == 0xFEFF

/-- The method `String.prototype.trim`. -/
def trim (s : JsString) : JsString :=
  ((s.dropWhile isTrimSpace).reverse.dropWhile isTrimSpace).reverse

/-- The test `!text || !text.trim()` on a string: the text is empty or only white space. -/
def isBlank (text : JsString) : Bool :=
  text.isEmpty || (trim text).isEmpty

/-! ## JSON values -/

/-- A finite JavaScript number as an exact decimal. `dec neg ds n` is
`± 0.d₁d₂…d_k × 10^n`, the digits `s` and the exponent `n` of `Number::toString`. -/
inductive JsNumber where
  | zero
  | dec (neg : Bool) (digits : List Nat) (pointPos : Int)
  deriving DecidableEq, Repr

/-- A JSON-compatible value. A mapping is the list of its members. -/
inductive Json where
  | null
  | bool (b : Bool)
  | num (x : JsNumber)
  | str (s : JsString)
  | arr (xs : List Json)
  | obj (ms : List (JsString × Json))
  deriving Repr

/-! ## JSON.parse -/

/-- JSON white space: space, tab, line feed, carriage return. -/
def isJsonWs (c : Nat) : Bool :=
  c == 32 || c == 9 || c == 10 || c == 13

/-- Skip JSON white space. -/
def skipWs (input : List Nat) : List Nat :=
  input.dropWhile isJsonWs

/-- Whether a code unit is a decimal digit. -/
def isDigit (c : Nat) : Bool :=
  48 ≤ c && c ≤ 57

/-- The longest run of decimal digits at the front, as digit values, and the rest. -/
def spanDigits : List Nat → List Nat × List Nat
  | [] => ([], [])
  | c :: r =>
    if isDigit c then ((c - 48) :: (spanDigits r).1, (spanDigits r).2)
    else ([], c :: r)

/-- The value of a digit sequence. -/
def natOfDigits (ds : List Nat) : Nat :=
  ds.foldl (fun a d => 10 * a + d) 0

/-- Drop the zeros at the front of a digit sequence. -/
def stripZeros (ds : List Nat) : List Nat :=
  ds.dropWhile (· == 0)

/-- The number of zeros at the front of a digit sequence. -/
def leadingZeros (ds : List Nat) : Nat :=
  (ds.takeWhile (· == 0)).length

/-- The number `± 0.d₁…d_k × 10^pos`, brought to the form without zeros at either end. -/
def mkNumber (neg : Bool) (ds : List Nat) (pos : Int) : JsNumber :=
  match stripZeros ds with
  | [] => .zero
  | d :: ds' => .dec neg (stripZeros (d :: ds').reverse).reverse (pos - leadingZeros ds)

/-- The integer part of a JSON number: `0`, or a digit run that does not start with `0`. -/
def parseIntPart : List Nat → Option (List Nat × List Nat)
  | [] => none
  | c :: r =>
    if c = 48 then some ([0], r)
    else if isDigit c then some (spanDigits (c :: r))
    else none

/-- The optional fraction of a JSON number: `.` and at least one digit. -/
def parseFrac : List Nat → Option (List Nat × List Nat)
  | [] => some ([], [])
  | c :: r =>
    if c = 46 then
      (if (spanDigits r).1 = [] then none else some (spanDigits r))
    else some ([], c :: r)

/-- The digits of an exponent, at least one, with the sign applied. -/
def parseExpDigits (negative : Bool) (input : List Nat) : Option (Int × List Nat) :=
  if (spanDigits input).1 = [] then none
  else some (if negative then -(natOfDigits (spanDigits input).1 : Int)
             else (natOfDigits (spanDigits input).1 : Int), (spanDigits input).2)

/-- The optional exponent of a JSON number: `e` or `E`, an optional sign, digits. -/
def parseExp : List Nat → Option (Int × List Nat)
  | [] => some (0, [])
  | c :: r =>
    if c = 101 ∨ c = 69 then
      match r with
      | [] => none
      | s :: r' =>
        if s = 43 then parseExpDigits false r'
        else if s = 45 then parseExpDigits true r'
        else parseExpDigits false (s :: r')
    else some (0, c :: r)

/-- A JSON number literal at the front of the input. -/
def parseNumber (input : List Nat) : Option (JsNumber × List Nat) :=
  let neg := input.head? = some 45
  let r0 := if neg then input.tail else input
  match parseIntPart r0 with
  | none => none
  | some (ip, r1) =>
    match parseFrac r1 with
    | none => none
    | some (fp, r2) =>
      match parseExp r2 with
      | none => none
      | some (e, r3) => some (mkNumber neg (ip ++ fp) (ip.length + e), r3)

/-- The value of a hexadecimal digit. -/
def hexVal (c : Nat) : Option Nat :=
  if 48 ≤ c ∧ c ≤ 57 then some (c - 48)
  else if 97 ≤ c ∧ c ≤ 102 then some (c - 87)
  else if 65 ≤ c ∧ c ≤ 70 then some (c - 55)
  else none

/-- The code unit a one-letter escape stands for. -/
def unescape (e : Nat) : Option Nat :=
  if e = 34 then some 34
  else if e = 92 then some 92
  else if e = 47 then some 47
  else if e = 98 then some 8
  else if e = 102 then some 12
  else if e = 110 then some 10
  else if e = 114 then some 13
  else if e = 116 then some 9
  else none

/-- The body of a JSON string up to the closing quote; the opening quote has been read. -/
def parseString : List Nat → Option (JsString × List Nat)
  | [] => none
  | c :: r =>
    if c = 34 then some ([], r)
    else if c = 92 then
      match r with
      | [] => none
      | e :: r' =>
        if e = 117 then
          match r' with
          | h1 :: h2 :: h3 :: h4 :: r'' =>
            match hexVal h1, hexVal h2, hexVal h3, hexVal h4 with
            | some a, some b, some c', some d =>
              (parseString r'').map fun p => ((4096 * a + 256 * b + 16 * c' + d) :: p.1, p.2)
            | _, _, _, _ => none
          | _ => none
        else
          match unescape e with
          | some u => (parseString r').map fun p => (u :: p.1, p.2)
          | none => none
    else if c < 32 then none
    else (parseString r).map fun p => (c :: p.1, p.2)

/-- Read a fixed word at the front of the input. -/
def expect (word input : List Nat) : Option (List Nat) :=
  if input.take word.length = word then some (input.drop word.length) else none

/-- Define a member on a mapping under construction: an existing key keeps its place and
takes the new value, a new key goes last. -/
def setMember (k : JsString) (v : Json) : List (JsString × Json) → List (JsString × Json)
  | [] => [(k, v)]
  | (k', v') :: ms => if k' = k then (k, v) :: ms else (k', v') :: setMember k v ms

/-- The mapping built from the members of an object literal, in text order. -/
def mkObject (ms : List (JsString × Json)) : List (JsString × Json) :=
  ms.foldl (fun acc m => setMember m.1 m.2 acc) []

mutual
/-- A JSON value at the front of the input (white space already skipped), and the rest. -/
def parseValue : Nat → List Nat → Option (Json × List Nat)
  | 0, _ => none
  | _ + 1, [] => none
  | fuel + 1, c :: r =>
    if c = 123 then
      match skipWs r with
      | [] => none
      | d :: r' =>
        if d = 125 then some (.obj [], r')
        else (parseMembers fuel (d :: r')).map fun p => (.obj (mkObject p.1), p.2)
    else if c = 91 then
      match skipWs r with
      | [] => none
      | d :: r' =>
        if d = 93 then some (.arr [], r')
        else (parseElements fuel (d :: r')).map fun p => (.arr p.1, p.2)
    else if c = 34 then (parseString r).map fun p => (.str p.1, p.2)
    else if c = 116 then (expect [114, 117, 101] r).map fun r' => (.bool true, r')
    else if c = 102 then (expect [97, 108, 115, 101] r).map fun r' => (.bool false, r')
    else if c = 110 then (expect [117, 108, 108] r).map fun r' => (.null, r')
    else if c = 45 ∨ isDigit c then (parseNumber (c :: r)).map fun p => (.num p.1, p.2)
    else none
/-- The elements of an array after `[`, up to and including `]`. -/
def parseElements : Nat → List Nat → Option (List Json × List Nat)
  | 0, _ => none
  | fuel + 1, input =>
    match parseValue fuel input with
    | none => none
    | some (v, r) =>
      match skipWs r with
      | [] => none
      | c :: r' =>
        if c = 44 then (parseElements fuel (skipWs r')).map fun p => (v :: p.1, p.2)
        else if c = 93 then some ([v], r')
        else none
/-- The members of an object after `{`, up to and including `}`. -/
def parseMembers : Nat → List Nat → Option (List (JsString × Json) × List Nat)
  | 0, _ => none
  | _ + 1, [] => none
  | fuel + 1, q :: r0 =>
    if q = 34 then
      match parseString r0 with
      | none => none
      | some (k, r1) =>
        match skipWs r1 with
        | [] => none
        | c :: r2 =>
          if c = 58 then
            match parseValue fuel (skipWs r2) with
            | none => none
            | some (v, r3) =>
              match skipWs r3 with
              | [] => none
              | c' :: r4 =>
                if c' = 44 then
                  (parseMembers fuel (skipWs r4)).map fun p => ((k, v) :: p.1, p.2)
                else if c' = 125 then some ([(k, v)], r4)
                else none
          else none
    else none
end

/-- The function `JSON.parse`: `none` stands for the SyntaxError it throws. -/
def jsonParse (text : JsString) : Option Json :=
  match parseValue (2 * text.length + 2) (skipWs text) with
  | none => none
  | some (v, rest) => if skipWs rest = [] then some v else none

/-- The function `safeJsonParse` of the script. The value returned from the `catch`
branch is the text itself, a JavaScript string. -/
def safeJsonParse (text : JsString) : Json :=
  if isBlank text then .null
  else
    match jsonParse text with
    | some v => v
    | none => .str text

/-! ## JSON.stringify -/

/-- The code units of a digit sequence. -/
def digitUnits (ds : List Nat) : JsString :=
  ds.map (· + 48)

/-- The decimal digits of a natural number, most significant first; `fuel` bounds the
number of digits. -/
def natDigitsAux : Nat → Nat → List Nat
  | 0, n => [n % 10]
  | fuel + 1, n => if n < 10 then [n] else natDigitsAux fuel (n / 10) ++ [n % 10]

/-- The decimal digits of a natural number, most significant first. -/
def natDigits (n : Nat) : List Nat :=
  natDigitsAux n n

/-- Steps 5 to 7 of `Number::toString` of ECMA-262 in radix 10, on the digits `ds` (their
number is `k`) and the exponent `n` of a positive number. -/
def digitsToString (ds : List Nat) (n : Int) : JsString :=
  let k : Int := ds.length
  if k ≤ n ∧ n ≤ 21 then
    digitUnits ds ++ List.replicate (n - k).toNat 48
  else if 0 < n ∧ n ≤ 21 then
    digitUnits (ds.take n.toNat) ++ 46 :: digitUnits (ds.drop n.toNat)
  else if -6 < n ∧ n ≤ 0 then
    48 :: 46 :: (List.replicate (-n).toNat 48 ++ digitUnits ds)
  else
    let sign := if 0 < n - 1 then 43 else 45
    let e := digitUnits (natDigits (n - 1).natAbs)
    match ds with
    | [] => []
    | [d] => (d + 48) :: 101 :: sign :: e
    | d :: rest => (d + 48) :: 46 :: (digitUnits rest ++ 101 :: sign :: e)

/-- The operation `Number::toString` of ECMA-262 in radix 10. -/
def numberToString : JsNumber → JsString
  | .zero => [48]
  | .dec neg ds n => if neg = true then 45 :: digitsToString ds n else digitsToString ds n

/-- A lower-case hexadecimal digit. -/
def hexDigit (d : Nat) : Nat :=
  if d < 10 then 48 + d else 87 + d

/-- The operation `UnicodeEscape`: a backslash, `u` and four hexadecimal digits. -/
def unicodeEscape (c : Nat) : JsString :=
  [92, 117, hexDigit (c / 4096 % 16), hexDigit (c / 256 % 16), hexDigit (c / 16 % 16),
    hexDigit (c % 16)]

/-- The inside of `QuoteJSONString`: short escapes for the seven code units of the table,
`UnicodeEscape` for the other control code units and for surrogates that are not part of a
pair, every other code unit as it is. -/
def quoteBody : JsString → JsString
  | [] => []
  | c :: r =>
    if c = 8 then 92 :: 98 :: quoteBody r
    else if c = 9 then 92 :: 116 :: quoteBody r
    else if c = 10 then 92 :: 110 :: quoteBody r
    else if c = 12 then 92 :: 102 :: quoteBody r
    else if c = 13 then 92 :: 114 :: quoteBody r
    else if c = 34 then 92 :: 34 :: quoteBody r
    else if c = 92 then 92 :: 92 :: quoteBody r
    else if c < 32 then unicodeEscape c ++ quoteBody r
    else if 0xD800 ≤ c ∧ c ≤ 0xDBFF then
      match r with
      | [] => unicodeEscape c
      | d :: r' =>
        if 0xDC00 ≤ d ∧ d ≤ 0xDFFF then c :: d :: quoteBody r'
        else unicodeEscape c ++ quoteBody (d :: r')
    else if 0xDC00 ≤ c ∧ c ≤ 0xDFFF then unicodeEscape c ++ quoteBody r
    else c :: quoteBody r

/-- The operation `QuoteJSONString`. -/
def quoteJsonString (s : JsString) : JsString :=
  34 :: (quoteBody s ++ [34])

/-- A line feed and the indentation of the given width. -/
def newline (indent : Nat) : JsString :=
  10 :: List.replicate indent 32

mutual
/-- The operation `SerializeJSONProperty` with a gap of two spaces, at the given
indentation. -/
def stringify (indent : Nat) : Json → JsString
  | .null => [110, 117, 108, 108]
  | .bool b => if b then [116, 114, 117, 101] else [102, 97, 108, 115, 101]
  | .num x => numberToString x
  | .str s => quoteJsonString s
  | .arr [] => [91, 93]
  | .arr (x :: xs) =>
    91 :: (newline (indent + 2) ++ stringify (indent + 2) x
      ++ stringifyElements (indent + 2) xs ++ newline indent ++ [93])
  | .obj [] => [123, 125]
  | .obj (m :: ms) =>
    123 :: (newline (indent + 2) ++ quoteJsonString m.1 ++ 58 :: 32 :: stringify (indent + 2) m.2
      ++ stringifyMembers (indent + 2) ms ++ newline indent ++ [125])
/-- The elements of an array after the first, each behind a comma and a new line. -/
def stringifyElements (indent : Nat) : List Json → JsString
  | [] => []
  | x :: xs => 44 :: (newline indent ++ stringify indent x ++ stringifyElements indent xs)
/-- The members of an object after the first, each behind a comma and a new line. -/
def stringifyMembers (indent : Nat) : List (JsString × Json) → JsString
  | [] => []
  | m :: ms =>
    44 :: (newline indent ++ quoteJsonString m.1 ++ 58 :: 32 :: stringify indent m.2
      ++ stringifyMembers indent ms)
end

/-- The call `JSON.stringify(obj, null, 2)` on a JSON-compatible value. -/
def jsonStringify (obj : Json) : JsString :=
  stringify 0 obj

/-- The function `formatJson` of the script. `JSON.stringify` throws for a cyclic structure
or a BigInt only, which no `Json` is, so the `catch` branch is not taken. -/
def formatJson (obj : Json) : JsString :=
  jsonStringify obj

/-- A number in the form `Number::toString` works on: digits below ten, at least one, no
zero at either end. -/
def JsNumber.canonical : JsNumber → Bool
  | .zero => true
  | .dec _ ds _ => ds.all (· < 10) && ds.head? != some 0 && ds.getLast? != some 0 && !ds.isEmpty

mutual
/-- A value a JavaScript program can hold: numbers in canonical form, the keys of a
mapping distinct. -/
def Json.wellFormed : Json → Bool
  | .null => true
  | .bool _ => true
  | .num x => x.canonical
  | .str _ => true
  | .arr xs => wellFormedElements xs
  | .obj ms => wellFormedMembers ms
/-- Every element is well formed. -/
def wellFormedElements : List Json → Bool
  | [] => true
  | x :: xs => x.wellFormed && wellFormedElements xs
/-- Every member value is well formed and no key occurs twice. -/
def wellFormedMembers : List (JsString × Json) → Bool
  | [] => true
  | m :: ms => !(ms.any fun m' => m'.1 == m.1) && m.2.wellFormed && wellFormedMembers ms
end

mutual
/-- The recursion depth `parseValue` needs for the text of a value. -/
def Json.need : Json → Nat
  | .arr xs => 1 + needElements xs
  | .obj ms => 1 + needMembers ms
  | _ => 1
/-- The recursion depth `parseElements` needs. -/
def needElements : List Json → Nat
  | [] => 0
  | x :: xs => 1 + x.need + needElements xs
/-- The recursion depth `parseMembers` needs. -/
def needMembers : List (JsString × Json) → Nat
  | [] => 0
  | m :: ms => 1 + m.2.need + needMembers ms
end

/-! ## Data received from the server -/

/-- The value held in `debugState.sessionId`: `null`, `undefined` (a response without the
field) or an identifier. -/
inductive SessionId where
  | null
  | undefined
  | str (s : String)
  deriving DecidableEq, Repr

/-- JavaScript truthiness of a session identifier: a non-empty string. -/
def SessionId.truthy : SessionId → Bool
  | .str s => s != ""
  | _ => false

/-- A step object, as found in `data.steps` and `data.step`. `index` is `some i` when
`typeof step.index === 'number'`. -/
structure Step where
  id : String
  name : String
  hasError : Bool
  index : Option Int
  className : String
  methodName : String
  deriving DecidableEq, Repr

/-- The object `data` obtained from `resp.json()`. `steps` and `step` are `none` when the
field is missing or `null`; a present `steps` is an array, possibly empty. -/
structure Response where
  success : Bool
  error : String
  sessionId : SessionId
  steps : Option (List Step)
  step : Option Step
  deriving DecidableEq, Repr

/-- What `await fetch(...)` followed by `await resp.json()` gives: an exception (the
request was rejected, the body is not JSON, or `data` has no properties), or the data. -/
inductive Reply where
  | failed (e : String)
  | json (data : Response)
  deriving DecidableEq, Repr

/-- A request issued with `fetch`. -/
inductive Request where
  /-- POST `/api/debug/start` with body `targetMethod`, `input`. -/
  | start (targetMethod : JsString) (input : Json)
  /-- POST `/api/debug/next` with body `sessionId`. -/
  | next (sessionId : SessionId)

/-! ## The page -/

/-- The object `debugState`. -/
structure DebugState where
  sessionId : SessionId
  steps : List Step
  currentIndex : Int
  deriving DecidableEq, Repr

/-- The value `debugState` is created with. -/
def initialDebugState : DebugState :=
  ⟨.null, [], -1⟩

/-- The text shown in the `step-info` element, by the assignment that wrote it. -/
inductive Message where
  /-- The text `执行中...`. -/
  | executing
  /-- The text `分析调用链路中...`. -/
  | analysing
  /-- The text `错误：` followed by `data.error`. -/
  | serverError (error : String)
  /-- The text `请求失败：` followed by the exception. -/
  | requestFailed (e : String)
  /-- The text `无步骤数据`. -/
  | noStepData
  /-- The header lines `renderStep` builds from a step. -/
  | stepHeader (step : Step)
  /-- The text `调用链路分析完成（未进入调试模式）`. -/
  | analysisDone
  deriving DecidableEq, Repr

/-- Whether the message reports an error to the user. -/
def Message.isError : Message → Bool
  | .serverError _ => true
  | .requestFailed _ => true
  | _ => false

/-- A node of the progress graph. -/
structure Node where
  id : String
  name : String
  symbolSize : Nat
  color : String
  deriving DecidableEq, Repr

/-- A link of the progress graph. -/
structure Link where
  source : String
  target : String
  deriving DecidableEq, Repr

/-- The option object last given to `chart.setOption` after `chart.clear()`. -/
inductive ChartOption where
  /-- Only a title. -/
  | placeholder (title : String)
  /-- A series of type `graph` with its `data` and `links`. -/
  | graph (nodes : List Node) (links : List Link)
  deriving DecidableEq, Repr

/-- The parts of the page the handlers read and write. The panels `args-json` and
`output-json` are not recorded. -/
structure Page where
  debugState : DebugState
  /-- The property `nextBtn.disabled`. -/
  nextDisabled : Bool
  /-- The text of `step-info`. -/
  stepInfo : Message
  /-- What the chart of `call-graph` shows; `none` before the first `setOption`. -/
  chart : Option ChartOption
  /-- The element `call-graph` exists and `echarts` is defined. -/
  chartReady : Bool
  /-- The requests issued so far, oldest first. -/
  requests : List Request

/-- The method `Array.prototype.map` with a callback of the element and its index. -/
def arrayMapFrom {α β : Type} (f : α → Nat → β) : Nat → List α → List β
  | _, [] => []
  | i, a :: as => f a i :: arrayMapFrom f (i + 1) as

/-- The loop `for (let i = 0; i < nodes.length - 1; i++) links.push(...)`. -/
def graphLinks (nodes : List Node) : List Link :=
  (List.range (nodes.length - 1)).foldl
    (fun links i =>
      match nodes[i]?, nodes[i + 1]? with
      | some a, some b => links ++ [⟨a.id, b.id⟩]
      | _, _ => links)
    []

/-- The function `renderStep`, as far as `step-info` goes. -/
def renderStep (step : Option Step) (p : Page) : Page :=
  match step with
  | none => { p with stepInfo := .noStepData }
  | some s => { p with stepInfo := .stepHeader s }

/-- The function `renderGraph`. -/
def renderGraph (p : Page) : Page :=
  if !p.chartReady then p
  else if p.debugState.steps.length = 0 then
    { p with chart := some (.placeholder "暂无调用步骤") }
  else
    let nodes := arrayMapFrom
      (fun (s : Step) (idx : Nat) =>
        let color :=
          if s.hasError then "#ef4444"
          else if (idx : Int) < p.debugState.currentIndex then "#16a34a"
          else if (idx : Int) = p.debugState.currentIndex then "#f97316"
          else "#d1d5db"
        (⟨s.id, s.name, 40, color⟩ : Node))
      0 p.debugState.steps
    { p with chart := some (.graph nodes (graphLinks nodes)) }

/-! ## The click handlers -/

/-- The click handler of `send-btn` in `setupSend`: start in debug mode. -/
def sendClick (targetText inputRaw : JsString) (reply : Reply) (p : Page) : Page :=
  let target := trim targetText
  let input := safeJsonParse inputRaw
  let p1 : Page := { p with stepInfo := .executing, nextDisabled := true,
                            requests := p.requests ++ [.start target input] }
  match reply with
  | .failed e => { p1 with stepInfo := .requestFailed e }
  | .json data =>
    if !data.success then { p1 with stepInfo := .serverError data.error }
    else
      let steps := data.steps.getD []
      let p2 : Page := { p1 with
        debugState := ⟨data.sessionId, steps, 0⟩,
        nextDisabled := decide (steps.length ≤ 1) }
      renderGraph (renderStep data.step p2)

/-- The click handler of `confirm-btn` in `setupSend`: start in analyzeOnly mode. -/
def confirmClick (targetText inputRaw : JsString) (reply : Reply) (p : Page) : Page :=
  let target := trim targetText
  let input := safeJsonParse inputRaw
  let p1 : Page := { p with stepInfo := .analysing, nextDisabled := true,
                            debugState := { p.debugState with sessionId := .null },
                            requests := p.requests ++ [.start target input] }
  match reply with
  | .failed e => { p1 with stepInfo := .requestFailed e }
  | .json data =>
    if !data.success then { p1 with stepInfo := .serverError data.error }
    else
      let steps := data.steps.getD []
      let p2 : Page := { p1 with
        debugState := ⟨p1.debugState.sessionId, steps, if steps.length > 0 then 0 else -1⟩ }
      { renderGraph p2 with stepInfo := .analysisDone }

/-- The click handler of `next-btn` in `setupNext`: advance. -/
def nextClick (reply : Reply) (p : Page) : Page :=
  if !p.debugState.sessionId.truthy then p
  else
    let p1 : Page := { p with requests := p.requests ++ [.next p.debugState.sessionId] }
    match reply with
    | .failed e => { p1 with stepInfo := .requestFailed e }
    | .json data =>
      if !data.success then { p1 with stepInfo := .serverError data.error }
      else
        let steps := data.steps.getD p1.debugState.steps
        let currentIndex :=
          match data.step.bind (·.index) with
          | some i => i
          | none =>
            if p1.debugState.currentIndex < (steps.length : Int) - 1
            then p1.debugState.currentIndex + 1
            else p1.debugState.currentIndex
        let p2 : Page := { p1 with debugState := ⟨p1.debugState.sessionId, steps, currentIndex⟩ }
        renderGraph (renderStep data.step p2)

/-- One user action together with the reply the server gives to it. -/
inductive Event where
  | send (targetText inputRaw : JsString) (reply : Reply)
  | confirm (targetText inputRaw : JsString) (reply : Reply)
  | next (reply : Reply)

/-- The page after one event. -/
def Event.apply (p : Page) : Event → Page
  | .send t i r => sendClick t i r p
  | .confirm t i r => confirmClick t i r p
  | .next r => nextClick r p

/-- The page after a sequence of events. -/
def run (p : Page) (es : List Event) : Page :=
  es.foldl Event.apply p

/-- A page as the script finds it when loaded: `debugState` has its initial value. -/
def freshPage (chartReady : Bool) : Page :=
  ⟨initialDebugState, false, .noStepData, none, chartReady, []⟩

/-- The invariant `-1 <= currentIndex < steps.length`. -/
def Invariant (s : DebugState) : Prop :=
  -1 ≤ s.currentIndex ∧ s.currentIndex < (s.steps.length : Int)

instance (s : DebugState) : Decidable (Invariant s) := by
  unfold Invariant
  exact inferInstance

/-- Whether a reply is a failed request: an exception, or data with `success` false. -/
def Reply.isFailure : Reply → Bool
  | .failed _ => true
  | .json data => !data.success

/-- The replies under which the invariant is kept by an event on page `p`: a successful
debug start returns at least one step, an index reported by a successful advance lies in
the step sequence after the update (or is `-1`), and a successful advance without an index
leaves the position `currentIndex` inside the step sequence after the update. -/
def Event.admissible (p : Page) : Event → Bool
  | .send _ _ (.json data) => !data.success || decide (0 < (data.steps.getD []).length)
  | .next (.json data) =>
    !p.debugState.sessionId.truthy || !data.success ||
    (match data.step.bind (·.index) with
     | some i => decide (-1 ≤ i ∧ i < ((data.steps.getD p.debugState.steps).length : Int))
     | none =>
       decide (p.debugState.currentIndex < ((data.steps.getD p.debugState.steps).length : Int)))
  | _ => true

/-- Every event of the run is admissible on the page it is applied to. -/
def admissibleRun (p : Page) : List Event → Bool
  | [] => true
  | e :: es => e.admissible p && admissibleRun (e.apply p) es

/-! ## Theorems -/

/-! ### The pieces of a page a rendering function leaves alone -/

@[simp] theorem renderStep_debugState (step : Option Step) (p : Page) :
    (renderStep step p).debugState = p.debugState := by
  cases step <;> rfl

@[simp] theorem renderStep_nextDisabled (step : Option Step) (p : Page) :
    (renderStep step p).nextDisabled = p.nextDisabled := by
  cases step <;> rfl

@[simp] theorem renderStep_requests (step : Option Step) (p : Page) :
    (renderStep step p).requests = p.requests := by
  cases step <;> rfl

@[simp] theorem renderStep_isError (step : Option Step) (p : Page) :
    (renderStep step p).stepInfo.isError = false := by
  cases step <;> rfl

@[simp] theorem renderGraph_debugState (p : Page) :
    (renderGraph p).debugState = p.debugState := by
  unfold renderGraph
  split
  · rfl
  · split <;> rfl

@[simp] theorem renderGraph_nextDisabled (p : Page) :
    (renderGraph p).nextDisabled = p.nextDisabled := by
  unfold renderGraph
  split
  · rfl
  · split <;> rfl

@[simp] theorem renderGraph_requests (p : Page) :
    (renderGraph p).requests = p.requests := by
  unfold renderGraph
  split
  · rfl
  · split <;> rfl

@[simp] theorem renderGraph_stepInfo (p : Page) :
    (renderGraph p).stepInfo = p.stepInfo := by
  unfold renderGraph
  split
  · rfl
  · split <;> rfl

/-! ### Start and advance -/

/-- C2, as the claim states it, fails: a failed analyzeOnly start on a page that holds the
session `s1` leaves `sessionId` cleared, not equal to its value before. -/
theorem failed_confirm_clears_session :
    (confirmClick [] [] (.failed "offline")
        ⟨⟨.str "s1", [], -1⟩, false, .noStepData, none, true, []⟩).debugState
      ≠ ⟨.str "s1", [], -1⟩ := by
  decide

/-- C2, amended: a failed start (an exception, or `success` false) leaves `steps` and
`currentIndex` as they were in both modes; `sessionId` is left as it was by the send
handler and is `null` after the confirm handler. -/
theorem failed_start_keeps_steps (targetText inputRaw : JsString) (reply : Reply) (p : Page)
    (h : reply.isFailure = true) :
    (sendClick targetText inputRaw reply p).debugState = p.debugState ∧
    (confirmClick targetText inputRaw reply p).debugState.steps = p.debugState.steps ∧
    (confirmClick targetText inputRaw reply p).debugState.currentIndex
      = p.debugState.currentIndex ∧
    (confirmClick targetText inputRaw reply p).debugState.sessionId = .null := by
  cases reply with
  | failed e => simp [sendClick, confirmClick]
  | json data =>
    have hs : data.success = false := by simpa [Reply.isFailure] using h
    simp [sendClick, confirmClick, hs]

theorem failed_start_keeps_steps_witness :
    (Reply.json ⟨false, "not found", .undefined, none, none⟩).isFailure = true ∧
    (sendClick [] [] (.json ⟨false, "not found", .undefined, none, none⟩)
        ⟨⟨.str "s1", [], -1⟩, false, .noStepData, none, true, []⟩).debugState
      = ⟨.str "s1", [], -1⟩ :=
  ⟨rfl, (failed_start_keeps_steps [] [] (.json ⟨false, "not found", .undefined, none, none⟩)
    ⟨⟨.str "s1", [], -1⟩, false, .noStepData, none, true, []⟩ rfl).1⟩

theorem confirmClick_sessionId (targetText inputRaw : JsString) (reply : Reply) (p : Page) :
    (confirmClick targetText inputRaw reply p).debugState.sessionId = .null := by
  cases reply with
  | failed e => simp [confirmClick]
  | json data => cases hs : data.success <;> simp [confirmClick, hs]

theorem nextClick_of_not_truthy (reply : Reply) (p : Page)
    (h : p.debugState.sessionId.truthy = false) : nextClick reply p = p := by
  simp [nextClick, h]

/-- C3: advance on a page whose `sessionId` is `null`, `undefined` or the empty string
issues no request and changes nothing (the whole page, request log included, is the same);
the page left by any analyzeOnly start, failed or not, has `sessionId` `null`, so advance
is a no-op on it. -/
theorem advance_without_session_is_noop (reply : Reply) (p : Page) :
    ((p.debugState.sessionId = .null ∨ p.debugState.sessionId = .undefined ∨
        p.debugState.sessionId = .str "") → nextClick reply p = p) ∧
    (∀ (targetText inputRaw : JsString) (startReply : Reply),
      (confirmClick targetText inputRaw startReply p).debugState.sessionId = .null ∧
      nextClick reply (confirmClick targetText inputRaw startReply p)
        = confirmClick targetText inputRaw startReply p) := by
  refine ⟨?_, ?_⟩
  · intro h
    apply nextClick_of_not_truthy
    rcases h with h | h | h <;> rw [h] <;> rfl
  · intro t i r
    refine ⟨confirmClick_sessionId t i r p, ?_⟩
    apply nextClick_of_not_truthy
    rw [confirmClick_sessionId]
    rfl

theorem advance_without_session_is_noop_witness :
    (nextClick (.json ⟨true, "", .undefined, none, none⟩)
        ⟨⟨.str "", [], -1⟩, false, .noStepData, none, true, []⟩).requests = [] :=
  congrArg Page.requests
    ((advance_without_session_is_noop (.json ⟨true, "", .undefined, none, none⟩)
      ⟨⟨.str "", [], -1⟩, false, .noStepData, none, true, []⟩).1 (Or.inr (Or.inr rfl)))

/-- C4: after a successful start, `steps` is the returned sequence (empty when the response
has none); after the send handler `sessionId` is the returned one, `currentIndex` is 0 and
the advance button is enabled exactly when more than one step exists; after the confirm
handler `sessionId` is `null` and `currentIndex` is 0 for a non-empty sequence, else -1. -/
theorem start_success_postcondition (targetText inputRaw : JsString) (data : Response)
    (p : Page) (h : data.success = true) :
    (sendClick targetText inputRaw (.json data) p).debugState.steps = data.steps.getD [] ∧
    (sendClick targetText inputRaw (.json data) p).debugState.sessionId = data.sessionId ∧
    (sendClick targetText inputRaw (.json data) p).debugState.currentIndex = 0 ∧
    ((sendClick targetText inputRaw (.json data) p).nextDisabled = false ↔
      1 < (data.steps.getD []).length) ∧
    (confirmClick targetText inputRaw (.json data) p).debugState.steps = data.steps.getD [] ∧
    (confirmClick targetText inputRaw (.json data) p).debugState.sessionId = .null ∧
    (data.steps.getD [] ≠ [] →
      (confirmClick targetText inputRaw (.json data) p).debugState.currentIndex = 0) ∧
    (data.steps.getD [] = [] →
      (confirmClick targetText inputRaw (.json data) p).debugState.currentIndex = -1) := by
  refine ⟨?_, ?_, ?_, ?_, ?_, ?_, ?_, ?_⟩
  · simp [sendClick, h]
  · simp [sendClick, h]
  · simp [sendClick, h]
  · simp [sendClick, h]
  · simp [confirmClick, h]
  · simp [confirmClick, h]
  · intro hne
    have : 0 < (data.steps.getD []).length := List.length_pos.mpr hne
    simp [confirmClick, h, this]
  · intro he
    simp [confirmClick, h, he]

theorem start_success_postcondition_witness :
    (sendClick (codeUnits "Foo#bar") (codeUnits "1")
        (.json ⟨true, "", .str "s1", some [⟨"a", "stepA", false, some 0, "Foo", "bar"⟩],
          some ⟨"a", "stepA", false, some 0, "Foo", "bar"⟩⟩)
        (freshPage true)).debugState.sessionId = .str "s1" :=
  (start_success_postcondition (codeUnits "Foo#bar") (codeUnits "1")
    ⟨true, "", .str "s1", some [⟨"a", "stepA", false, some 0, "Foo", "bar"⟩],
      some ⟨"a", "stepA", false, some 0, "Foo", "bar"⟩⟩ (freshPage true) rfl).2.1

/-- C1, as the claim states it, fails, in three ways: (1) a successful debug start whose
response has no steps sets `currentIndex` to 0 over an empty sequence; (2) a successful
advance takes the reported index 5 although there is one step; (3) a successful advance
without an index that returns a shorter sequence keeps the old `currentIndex`. -/
theorem invariant_broken :
    ¬ Invariant (run (freshPage true)
        [.send [] [] (.json ⟨true, "", .str "s1", none, none⟩)]).debugState ∧
    ¬ Invariant (run (freshPage true)
        [.send [] [] (.json ⟨true, "", .str "s1", some [⟨"a", "a", false, none, "", ""⟩], none⟩),
         .next (.json ⟨true, "", .undefined, none,
           some ⟨"a", "a", false, some 5, "", ""⟩⟩)]).debugState ∧
    ¬ Invariant (run (freshPage true)
        [.send [] [] (.json ⟨true, "", .str "s1", some [⟨"a", "a", false, none, "", ""⟩], none⟩),
         .next (.json ⟨true, "", .undefined, some [], none⟩)]).debugState := by
  decide

theorem apply_keeps_invariant (p : Page) (e : Event) (hi : Invariant p.debugState)
    (ha : e.admissible p = true) : Invariant (e.apply p).debugState := by
  unfold Invariant at hi ⊢
  cases e with
  | send t i r =>
    cases r with
    | failed x => simpa [Event.apply, sendClick] using hi
    | json data =>
      cases hs : data.success
      · simpa [Event.apply, sendClick, hs] using hi
      · have hlen : 0 < (data.steps.getD []).length := by
          simpa [Event.admissible, hs] using ha
        simp [Event.apply, sendClick, hs]
        exact hlen
  | confirm t i r =>
    cases r with
    | failed x => simpa [Event.apply, confirmClick] using hi
    | json data =>
      cases hs : data.success
      · simpa [Event.apply, confirmClick, hs] using hi
      · simp only [Event.apply, confirmClick, hs, Bool.not_true, Bool.false_eq_true, if_false,
          renderGraph_debugState]
        by_cases hl : (data.steps.getD []).length > 0
        · simp [hl]
        · simp [hl]
          have : data.steps.getD [] = [] := List.length_eq_zero.mp (by omega)
          simp [this]
  | next r =>
    cases ht : p.debugState.sessionId.truthy
    · simpa [Event.apply, nextClick, ht] using hi
    · cases r with
      | failed x => simpa [Event.apply, nextClick, ht] using hi
      | json data =>
        cases hs : data.success
        · simpa [Event.apply, nextClick, ht, hs] using hi
        · cases hx : data.step.bind (·.index) with
          | some i =>
            have hb : -1 ≤ i ∧ i < ((data.steps.getD p.debugState.steps).length : Int) := by
              simpa [Event.admissible, ht, hs, hx] using ha
            simpa [Event.apply, nextClick, ht, hs, hx] using hb
          | none =>
            have hb : p.debugState.currentIndex
                < ((data.steps.getD p.debugState.steps).length : Int) := by
              simpa [Event.admissible, ht, hs, hx] using ha
            simp only [Event.apply, nextClick, ht, hs, hx, Bool.not_true, Bool.false_eq_true,
              if_false, renderGraph_debugState, renderStep_debugState]
            split
            · refine ⟨?_, ?_⟩
              · show -1 ≤ p.debugState.currentIndex + 1
                omega
              · show p.debugState.currentIndex + 1 < _
                omega
            · exact ⟨hi.1, hb⟩

theorem run_keeps_invariant (es : List Event) :
    ∀ p : Page, Invariant p.debugState → admissibleRun p es = true →
      Invariant (run p es).debugState := by
  induction es with
  | nil => intro p hi _; exact hi
  | cons e es ih =>
    intro p hi ha
    have ha' : e.admissible p = true ∧ admissibleRun (e.apply p) es = true := by
      simpa [admissibleRun] using ha
    exact ih (e.apply p) (apply_keeps_invariant p e hi ha'.1) ha'.2

theorem admissibleRun_take (es : List Event) :
    ∀ (p : Page) (k : Nat), admissibleRun p es = true → admissibleRun p (es.take k) = true := by
  induction es with
  | nil => intro p k h; simpa using h
  | cons e es ih =>
    intro p k h
    cases k with
    | zero => rfl
    | succ k =>
      have h' : e.admissible p = true ∧ admissibleRun (e.apply p) es = true := by
        simpa [admissibleRun] using h
      simp [admissibleRun, h'.1, ih (e.apply p) k h'.2]

/-- C1, amended: from a page whose `debugState` is the initial one, after every transition
of a run of send, confirm and advance events the invariant `-1 <= currentIndex < steps.length`
holds, provided every event of the run is admissible: a successful debug start returns at
least one step, an index reported by a successful advance is at least -1 and below the
length of the step sequence after the update, and a successful advance without an index
leaves `currentIndex` below that length. -/
theorem invariant_after_every_transition (p : Page) (es : List Event) (k : Nat)
    (h0 : p.debugState = initialDebugState) (ha : admissibleRun p es = true) :
    -1 ≤ (run p (es.take k)).debugState.currentIndex ∧
    (run p (es.take k)).debugState.currentIndex
      < ((run p (es.take k)).debugState.steps.length : Int) := by
  have hi : Invariant p.debugState := by
    rw [h0]
    decide
  exact run_keeps_invariant (es.take k) p hi (admissibleRun_take es p k ha)

theorem invariant_after_every_transition_witness :
    -1 ≤ (run (freshPage true)
        ([Event.send [] [] (.json ⟨true, "", .str "s1",
            some [⟨"a", "a", false, none, "", ""⟩], none⟩),
          Event.next (.json ⟨true, "", .undefined, none, none⟩),
          Event.confirm [] [] (.failed "offline")].take 2)).debugState.currentIndex ∧
    (run (freshPage true)
        ([Event.send [] [] (.json ⟨true, "", .str "s1",
            some [⟨"a", "a", false, none, "", ""⟩], none⟩),
          Event.next (.json ⟨true, "", .undefined, none, none⟩),
          Event.confirm [] [] (.failed "offline")].take 2)).debugState.currentIndex
      < ((run (freshPage true)
        ([Event.send [] [] (.json ⟨true, "", .str "s1",
            some [⟨"a", "a", false, none, "", ""⟩], none⟩),
          Event.next (.json ⟨true, "", .undefined, none, none⟩),
          Event.confirm [] [] (.failed "offline")].take 2)).debugState.steps.length : Int) :=
  invariant_after_every_transition (freshPage true) _ 2 rfl (by decide)

/-! ### The target method field -/

/-- C9, as the claim states it, fails: with a target-method field of two spaces both start
handlers issue the request to `/api/debug/start`, with the empty string as `targetMethod`,
and on a successful reply no error message is shown. -/
theorem blank_target_is_sent :
    (sendClick (codeUnits "  ") (codeUnits "1") (.json ⟨true, "", .str "s1", none, none⟩)
        (freshPage true)).requests = [.start [] (.num (.dec false [1] 1))] ∧
    (sendClick (codeUnits "  ") (codeUnits "1") (.json ⟨true, "", .str "s1", none, none⟩)
        (freshPage true)).stepInfo.isError = false ∧
    (confirmClick (codeUnits "  ") (codeUnits "1") (.json ⟨true, "", .str "s1", none, none⟩)
        (freshPage true)).requests = [.start [] (.num (.dec false [1] 1))] ∧
    (confirmClick (codeUnits "  ") (codeUnits "1") (.json ⟨true, "", .str "s1", none, none⟩)
        (freshPage true)).stepInfo.isError = false :=
  ⟨rfl, rfl, rfl, rfl⟩

/-- C9, amended: the start handlers do not check the target-method field. For every content
of the field, blank or not, each handler issues exactly one request to `/api/debug/start`
that carries the trimmed text (the empty string for a blank field), and an error message
is shown exactly when the request fails. -/
theorem start_always_sends (targetText inputRaw : JsString) (reply : Reply) (p : Page) :
    (sendClick targetText inputRaw reply p).requests
      = p.requests ++ [.start (trim targetText) (safeJsonParse inputRaw)] ∧
    (confirmClick targetText inputRaw reply p).requests
      = p.requests ++ [.start (trim targetText) (safeJsonParse inputRaw)] ∧
    ((sendClick targetText inputRaw reply p).stepInfo.isError = reply.isFailure) ∧
    ((confirmClick targetText inputRaw reply p).stepInfo.isError = reply.isFailure) := by
  cases reply with
  | failed e => simp [sendClick, confirmClick, Reply.isFailure, Message.isError]
  | json data =>
    cases hs : data.success
    · simp [sendClick, confirmClick, Reply.isFailure, Message.isError, hs]
    · simp [sendClick, confirmClick, Reply.isFailure, hs]
      rfl

/-! ### The progress graph -/

theorem arrayMapFrom_getElem? {α β : Type} (f : α → Nat → β) (xs : List α) :
    ∀ i k, (arrayMapFrom f i xs)[k]? = (xs[k]?).map fun a => f a (i + k) := by
  induction xs with
  | nil => intro i k; simp [arrayMapFrom]
  | cons a as ih =>
    intro i k
    cases k with
    | zero => simp [arrayMapFrom]
    | succ k =>
      simp only [arrayMapFrom, List.getElem?_cons_succ, ih]
      congr 1
      funext a
      congr 1
      omega

theorem renderGraph_node (p : Page) (h : p.chartReady = true) (hne : p.debugState.steps ≠ []) :
    ∃ (nodes : List Node) (links : List Link),
      (renderGraph p).chart = some (.graph nodes links) ∧
      ∀ idx : Nat, nodes[idx]? = (p.debugState.steps[idx]?).map fun (s : Step) =>
        ⟨s.id, s.name, 40,
          if s.hasError then "#ef4444"
          else if (idx : Int) < p.debugState.currentIndex then "#16a34a"
          else if (idx : Int) = p.debugState.currentIndex then "#f97316"
          else "#d1d5db"⟩ := by
  have hl : ¬ p.debugState.steps.length = 0 := by
    intro h0
    exact hne (List.length_eq_zero.mp h0)
  simp only [renderGraph, h, hl, Bool.not_true, Bool.false_eq_true, if_false]
  refine ⟨_, _, rfl, ?_⟩
  intro idx
  rw [arrayMapFrom_getElem?]
  simp

/-- C7: when the chart can be drawn and there are steps, the node at position `idx` has the
error colour `#ef4444` if the step has `hasError` set, whatever `currentIndex` is; otherwise
the completed colour `#16a34a` if `idx < currentIndex`, the active colour `#f97316` if
`idx = currentIndex`, the pending colour `#d1d5db` if `idx > currentIndex`. So at most one
node is active-coloured, and every node before it whose step has no error is
completed-coloured. -/
theorem node_colour_policy (p : Page) (h : p.chartReady = true)
    (hne : p.debugState.steps ≠ []) :
    ∃ (nodes : List Node) (links : List Link),
      (renderGraph p).chart = some (.graph nodes links) ∧
      (∀ (idx : Nat) (s : Step), p.debugState.steps[idx]? = some s →
        ∃ nd : Node, nodes[idx]? = some nd ∧
          (s.hasError = true → nd.color = "#ef4444") ∧
          (s.hasError = false → (idx : Int) < p.debugState.currentIndex →
            nd.color = "#16a34a") ∧
          (s.hasError = false → (idx : Int) = p.debugState.currentIndex →
            nd.color = "#f97316") ∧
          (s.hasError = false → (idx : Int) > p.debugState.currentIndex →
            nd.color = "#d1d5db")) ∧
      (∀ (i j : Nat) (ni nj : Node), nodes[i]? = some ni → nodes[j]? = some nj →
        ni.color = "#f97316" → nj.color = "#f97316" → i = j) ∧
      (∀ (i j : Nat) (si : Step) (nj : Node), i < j → p.debugState.steps[i]? = some si →
        si.hasError = false → nodes[j]? = some nj → nj.color = "#f97316" →
        ∃ ni : Node, nodes[i]? = some ni ∧ ni.color = "#16a34a") := by
  obtain ⟨nodes, links, hc, hn⟩ := renderGraph_node p h hne
  have active : ∀ (j : Nat) (nj : Node), nodes[j]? = some nj → nj.color = "#f97316" →
      (j : Int) = p.debugState.currentIndex := by
    intro j nj hj hcol
    rw [hn j] at hj
    cases hs : p.debugState.steps[j]? with
    | none => simp [hs] at hj
    | some s =>
      simp only [hs, Option.map_some', Option.some.injEq] at hj
      subst hj
      by_contra hcon
      revert hcol
      simp only [hcon, if_false]
      split
      · decide
      · split <;> decide
  refine ⟨nodes, links, hc, ?_, ?_, ?_⟩
  · intro idx s hs
    refine ⟨_, by rw [hn idx, hs]; rfl, ?_, ?_, ?_, ?_⟩
    · intro he
      simp [he]
    · intro he hlt
      simp [he, hlt]
    · intro he heq
      simp [he, heq]
    · intro he hgt
      have h1 : ¬ (idx : Int) < p.debugState.currentIndex := by omega
      have h2 : ¬ (idx : Int) = p.debugState.currentIndex := by omega
      simp [he, h1, h2]
  · intro i j ni nj hi hj hci hcj
    have := active i ni hi hci
    have := active j nj hj hcj
    omega
  · intro i j si nj hij hsi hei hj hcj
    have hjc := active j nj hj hcj
    refine ⟨_, by rw [hn i, hsi]; rfl, ?_⟩
    have hlt : (i : Int) < p.debugState.currentIndex := by omega
    simp [hei, hlt]

theorem node_colour_policy_witness :
    (match (renderGraph ⟨⟨.str "s1", [⟨"a", "stepA", false, some 0, "", ""⟩,
          ⟨"b", "stepB", false, some 1, "", ""⟩], 1⟩, false, .noStepData, none, true, []⟩).chart
      with
      | some (.graph nodes _) => nodes.map fun nd => nd.color
      | _ => [])
      = ["#16a34a", "#f97316"] := by
  obtain ⟨nodes, links, hc, -, -, -⟩ :=
    node_colour_policy ⟨⟨.str "s1", [⟨"a", "stepA", false, some 0, "", ""⟩,
      ⟨"b", "stepB", false, some 1, "", ""⟩], 1⟩, false, .noStepData, none, true, []⟩ rfl
      (by decide)
  have hc' : some (ChartOption.graph nodes links) = some (.graph
      [⟨"a", "stepA", 40, "#16a34a"⟩, ⟨"b", "stepB", 40, "#f97316"⟩]
      [⟨"a", "b"⟩]) := by
    rw [← hc]
    rfl
  rw [hc, hc']
  rfl

/-! ### Permissive input parsing -/

theorem dropWhile_eq_nil_of_reverse {α : Type} (q : α → Bool) (l : List α)
    (h : (((l.dropWhile q).reverse).dropWhile q).reverse = []) : ∀ x ∈ l, q x = true := by
  have h1 : ((l.dropWhile q).reverse).dropWhile q = [] := by simpa using h
  have h2 : ∀ x ∈ l.dropWhile q, q x = true := by
    intro x hx
    exact List.dropWhile_eq_nil_iff.mp h1 x (List.mem_reverse.mpr hx)
  have h3 : l.dropWhile q = [] := by
    cases hd : l.dropWhile q with
    | nil => rfl
    | cons a as =>
      have hq : q a = true := h2 a (by simp [hd])
      have hn : ¬ q a = true := by
        have := @List.head_dropWhile_not α q l (by simp [hd])
        simpa [hd] using this
      exact absurd hq hn
  exact List.dropWhile_eq_nil_iff.mp h3

theorem isBlank_all (text : JsString) (h : isBlank text = true) :
    ∀ c ∈ text, isTrimSpace c = true := by
  simp only [isBlank, Bool.or_eq_true, List.isEmpty_iff] at h
  rcases h with h | h
  · subst h
    simp
  · exact dropWhile_eq_nil_of_reverse isTrimSpace text h

theorem parseValue_trimSpace (fuel : Nat) (c : Nat) (r : List Nat)
    (h : isTrimSpace c = true) : parseValue fuel (c :: r) = none := by
  cases fuel with
  | zero => simp [parseValue]
  | succ f =>
    have hc : c ≠ 123 ∧ c ≠ 91 ∧ c ≠ 34 ∧ c ≠ 116 ∧ c ≠ 102 ∧ c ≠ 110 ∧ c ≠ 45 ∧
        ¬ (48 ≤ c ∧ c ≤ 57) := by
      simp only [isTrimSpace, Bool.or_eq_true, beq_iff_eq, Bool.and_eq_true,
        decide_eq_true_eq] at h
      omega
    obtain ⟨h1, h2, h3, h4, h5, h6, h7, h8⟩ := hc
    have hd : isDigit c = false := by
      simp only [isDigit, Bool.and_eq_false_iff, decide_eq_false_iff_not]
      omega
    simp [parseValue, h1, h2, h3, h4, h5, h6, h7, hd]

theorem jsonParse_of_isBlank (text : JsString) (h : isBlank text = true) :
    jsonParse text = none := by
  have hall := isBlank_all text h
  have hsuf : ∀ c ∈ skipWs text, isTrimSpace c = true := by
    intro c hc
    exact hall c ((List.dropWhile_sublist isJsonWs).subset hc)
  unfold jsonParse
  cases hsk : skipWs text with
  | nil => cases text <;> simp [parseValue]
  | cons c r =>
    rw [parseValue_trimSpace _ c r (hsuf c (by simp [hsk]))]

/-- C8, as the claim states it, fails: the empty text is not valid JSON, yet the result is
`null`, not the text itself. -/
theorem blank_text_gives_null :
    jsonParse [] = none ∧ safeJsonParse [] = .null ∧ safeJsonParse [] ≠ .str [] := by
  refine ⟨rfl, rfl, ?_⟩
  intro h
  cases h

/-- C8, amended: `safeJsonParse` returns a value for every text. A text that is empty or
only white space is never valid JSON and gives `null`; a text that is valid JSON gives the
parsed value; every other text gives the text itself, as a string. -/
theorem safeJsonParse_cases (text : JsString) :
    (isBlank text = true → jsonParse text = none ∧ safeJsonParse text = .null) ∧
    (∀ v, jsonParse text = some v → safeJsonParse text = v) ∧
    (isBlank text = false → jsonParse text = none → safeJsonParse text = .str text) := by
  refine ⟨?_, ?_, ?_⟩
  · intro hb
    exact ⟨jsonParse_of_isBlank text hb, by simp [safeJsonParse, hb]⟩
  · intro v hv
    have hb : isBlank text = false := by
      cases hb : isBlank text with
      | false => rfl
      | true => rw [jsonParse_of_isBlank text hb] at hv; cases hv
    simp [safeJsonParse, hb, hv]
  · intro hb hn
    simp [safeJsonParse, hb, hn]

theorem safeJsonParse_cases_witness :
    safeJsonParse (codeUnits "[1, true]") = .arr [.num (.dec false [1] 1), .bool true] ∧
    safeJsonParse (codeUnits "Foo#bar") = .str (codeUnits "Foo#bar") :=
  ⟨(safeJsonParse_cases (codeUnits "[1, true]")).2.1 _ rfl,
   (safeJsonParse_cases (codeUnits "Foo#bar")).2.2 rfl rfl⟩

/-! ### Format and parse: strings -/

theorem parseString_cons (c : Nat) (r : List Nat) :
    parseString (c :: r) =
      if c = 34 then some ([], r)
      else if c = 92 then
        match r with
        | [] => none
        | e :: r' =>
          if e = 117 then
            match r' with
            | h1 :: h2 :: h3 :: h4 :: r'' =>
              match hexVal h1, hexVal h2, hexVal h3, hexVal h4 with
              | some a, some b, some c', some d =>
                (parseString r'').map fun p => ((4096 * a + 256 * b + 16 * c' + d) :: p.1, p.2)
              | _, _, _, _ => none
            | _ => none
          else
            match unescape e with
            | some u => (parseString r').map fun p => (u :: p.1, p.2)
            | none => none
      else if c < 32 then none
      else (parseString r).map fun p => (c :: p.1, p.2) := by
  rw [parseString.eq_def]

theorem quoteBody_cons (c : Nat) (r : List Nat) :
    quoteBody (c :: r) =
      if c = 8 then 92 :: 98 :: quoteBody r
      else if c = 9 then 92 :: 116 :: quoteBody r
      else if c = 10 then 92 :: 110 :: quoteBody r
      else if c = 12 then 92 :: 102 :: quoteBody r
      else if c = 13 then 92 :: 114 :: quoteBody r
      else if c = 34 then 92 :: 34 :: quoteBody r
      else if c = 92 then 92 :: 92 :: quoteBody r
      else if c < 32 then unicodeEscape c ++ quoteBody r
      else if 0xD800 ≤ c ∧ c ≤ 0xDBFF then
        match r with
        | [] => unicodeEscape c
        | d :: r' =>
          if 0xDC00 ≤ d ∧ d ≤ 0xDFFF then c :: d :: quoteBody r'
          else unicodeEscape c ++ quoteBody (d :: r')
      else if 0xDC00 ≤ c ∧ c ≤ 0xDFFF then unicodeEscape c ++ quoteBody r
      else c :: quoteBody r := by
  rw [quoteBody.eq_def]

theorem hexVal_hexDigit (d : Nat) (h : d < 16) : hexVal (hexDigit d) = some d := by
  unfold hexDigit hexVal
  by_cases h10 : d < 10
  · have h1 : 48 ≤ 48 + d ∧ 48 + d ≤ 57 := by omega
    simp [h10, h1]
  · have h1 : ¬ (48 ≤ 87 + d ∧ 87 + d ≤ 57) := by omega
    have h2 : 97 ≤ 87 + d ∧ 87 + d ≤ 102 := by omega
    simp [h10, h1, h2]

theorem parseString_unicodeEscape (c : Nat) (t : List Nat) (h : c < 65536) :
    parseString (unicodeEscape c ++ t)
      = (parseString t).map fun p => (c :: p.1, p.2) := by
  have hv : 4096 * (c / 4096 % 16) + 256 * (c / 256 % 16) + 16 * (c / 16 % 16) + c % 16 = c := by
    omega
  simp only [unicodeEscape, List.cons_append, List.nil_append]
  rw [parseString_cons]
  simp only [hexVal_hexDigit _ (Nat.mod_lt _ (by decide : 16 > 0)), hv]
  simp

theorem parseString_literal (c : Nat) (t : List Nat) (h1 : c ≠ 34) (h2 : c ≠ 92)
    (h3 : ¬ c < 32) : parseString (c :: t) = (parseString t).map fun p => (c :: p.1, p.2) := by
  rw [parseString_cons]
  simp [h1, h2, h3]

theorem parseString_escape (e u : Nat) (t : List Nat) (h : unescape e = some u)
    (hu : e ≠ 117) : parseString (92 :: e :: t) = (parseString t).map fun p => (u :: p.1, p.2) := by
  rw [parseString_cons]
  simp [h, hu]

theorem parseString_quoteBody_aux (n : Nat) :
    ∀ (s : JsString) (rest : List Nat), s.length ≤ n →
      parseString (quoteBody s ++ 34 :: rest) = some (s, rest) := by
  induction n with
  | zero =>
    intro s rest hs
    have : s = [] := List.length_eq_zero.mp (by omega)
    subst this
    rw [quoteBody, List.nil_append, parseString_cons]
    simp
  | succ n ih =>
    intro s rest hs
    cases s with
    | nil =>
      rw [quoteBody, List.nil_append, parseString_cons]
      simp
    | cons c r =>
      have hr : r.length ≤ n := by simpa using hs
      rw [quoteBody_cons]
      by_cases h8 : c = 8
      · subst h8
        simp only [if_true, List.cons_append]
        rw [parseString_escape 98 8 _ rfl (by decide), ih r rest hr]
        rfl
      rw [if_neg h8]
      by_cases h9 : c = 9
      · subst h9
        simp only [if_true, List.cons_append]
        rw [parseString_escape 116 9 _ rfl (by decide), ih r rest hr]
        rfl
      rw [if_neg h9]
      by_cases h10 : c = 10
      · subst h10
        simp only [if_true, List.cons_append]
        rw [parseString_escape 110 10 _ rfl (by decide), ih r rest hr]
        rfl
      rw [if_neg h10]
      by_cases h12 : c = 12
      · subst h12
        simp only [if_true, List.cons_append]
        rw [parseString_escape 102 12 _ rfl (by decide), ih r rest hr]
        rfl
      rw [if_neg h12]
      by_cases h13 : c = 13
      · subst h13
        simp only [if_true, List.cons_append]
        rw [parseString_escape 114 13 _ rfl (by decide), ih r rest hr]
        rfl
      rw [if_neg h13]
      by_cases h34 : c = 34
      · subst h34
        simp only [if_true, List.cons_append]
        rw [parseString_escape 34 34 _ rfl (by decide), ih r rest hr]
        rfl
      rw [if_neg h34]
      by_cases h92 : c = 92
      · subst h92
        simp only [if_true, List.cons_append]
        rw [parseString_escape 92 92 _ rfl (by decide), ih r rest hr]
        rfl
      rw [if_neg h92]
      by_cases hlt : c < 32
      · rw [if_pos hlt, List.append_assoc, parseString_unicodeEscape c _ (by omega), ih r rest hr]
        rfl
      rw [if_neg hlt]
      by_cases hhi : 0xD800 ≤ c ∧ c ≤ 0xDBFF
      · rw [if_pos hhi]
        cases r with
        | nil =>
          simp only []
          rw [parseString_unicodeEscape c _ (by omega), parseString_cons]
          simp
        | cons d r' =>
          simp only []
          by_cases hlo : 0xDC00 ≤ d ∧ d ≤ 0xDFFF
          · rw [if_pos hlo]
            simp only [List.cons_append]
            rw [parseString_literal c _ h34 h92 hlt,
              parseString_literal d _ (by omega) (by omega) (by omega),
              ih r' rest (by simp at hr; omega)]
            rfl
          · rw [if_neg hlo, List.append_assoc, parseString_unicodeEscape c _ (by omega),
              ih (d :: r') rest hr]
            rfl
      rw [if_neg hhi]
      by_cases hlo : 0xDC00 ≤ c ∧ c ≤ 0xDFFF
      · rw [if_pos hlo, List.append_assoc, parseString_unicodeEscape c _ (by omega), ih r rest hr]
        rfl
      rw [if_neg hlo]
      simp only [List.cons_append]
      rw [parseString_literal c _ h34 h92 hlt, ih r rest hr]
      rfl

theorem parseString_quoteBody (s : JsString) (rest : List Nat) :
    parseString (quoteBody s ++ 34 :: rest) = some (s, rest) :=
  parseString_quoteBody_aux s.length s rest (Nat.le_refl _)

/-! ### Format and parse: numbers -/

theorem spanDigits_digitUnits (ds rest : List Nat) (hd : ∀ d ∈ ds, d < 10)
    (hr : ∀ c, rest.head? = some c → isDigit c = false) :
    spanDigits (digitUnits ds ++ rest) = (ds, rest) := by
  induction ds with
  | nil =>
    cases rest with
    | nil => rfl
    | cons c r =>
      have := hr c rfl
      simp [digitUnits, spanDigits, this]
  | cons d ds ih =>
    have hd0 : d < 10 := hd d (by simp)
    have hdig : isDigit (d + 48) = true := by
      simp only [isDigit, Bool.and_eq_true, decide_eq_true_eq]
      omega
    have ih' := ih (fun x hx => hd x (by simp [hx]))
    simp only [digitUnits] at ih'
    simp [digitUnits, spanDigits, hdig, ih']

theorem natOfDigits_append (l : List Nat) (d : Nat) :
    natOfDigits (l ++ [d]) = 10 * natOfDigits l + d := by
  simp [natOfDigits, List.foldl_append]

theorem natDigitsAux_spec (fuel : Nat) :
    ∀ n, n ≤ fuel → natOfDigits (natDigitsAux fuel n) = n ∧
      (∀ d ∈ natDigitsAux fuel n, d < 10) ∧ natDigitsAux fuel n ≠ [] := by
  induction fuel with
  | zero =>
    intro n hn
    have : n = 0 := by omega
    subst this
    simp [natDigitsAux, natOfDigits]
  | succ fuel ih =>
    intro n hn
    by_cases h : n < 10
    · simp [natDigitsAux, h, natOfDigits]
    · obtain ⟨h1, h2, _⟩ := ih (n / 10) (by omega)
      simp only [natDigitsAux, h, if_false]
      refine ⟨?_, ?_, by simp⟩
      · rw [natOfDigits_append, h1]
        omega
      · intro d hd
        rcases List.mem_append.mp hd with hd | hd
        · exact h2 d hd
        · have : d = n % 10 := by simpa using hd
          omega

theorem natDigits_spec (n : Nat) :
    natOfDigits (natDigits n) = n ∧ (∀ d ∈ natDigits n, d < 10) ∧ natDigits n ≠ [] :=
  natDigitsAux_spec n n (Nat.le_refl n)

theorem stripZeros_replicate (a : Nat) (ds : List Nat) :
    stripZeros (List.replicate a 0 ++ ds) = stripZeros ds := by
  induction a with
  | zero => rfl
  | succ a ih =>
    simp only [stripZeros, List.replicate_succ, List.cons_append, List.dropWhile_cons] at ih ⊢
    simp [ih]

theorem stripZeros_of_head (ds : List Nat) (h : ds.head? ≠ some 0) : stripZeros ds = ds := by
  cases ds with
  | nil => rfl
  | cons d tl =>
    have : d ≠ 0 := by simpa using h
    simp [stripZeros, List.dropWhile_cons, this]

theorem leadingZeros_replicate (a : Nat) (ds : List Nat) (h : ds.head? ≠ some 0) :
    leadingZeros (List.replicate a 0 ++ ds) = a := by
  induction a with
  | zero =>
    cases ds with
    | nil => rfl
    | cons d tl =>
      have : d ≠ 0 := by simpa using h
      simp [leadingZeros, List.takeWhile_cons, this]
  | succ a ih =>
    simp only [leadingZeros] at ih
    simp only [leadingZeros, List.replicate_succ, List.cons_append, List.takeWhile_cons,
      beq_self_eq_true, if_true, List.length_cons, ih]

theorem mkNumber_padded (neg : Bool) (a b : Nat) (ds : List Nat) (pos : Int)
    (hne : ds ≠ []) (hh : ds.head? ≠ some 0) (hl : ds.getLast? ≠ some 0) :
    mkNumber neg (List.replicate a 0 ++ ds ++ List.replicate b 0) pos
      = .dec neg ds (pos - a) := by
  have hh' : (ds ++ List.replicate b 0).head? ≠ some 0 := by
    cases ds with
    | nil => exact absurd rfl hne
    | cons d tl => simpa using hh
  have h1 : stripZeros (List.replicate a 0 ++ ds ++ List.replicate b 0)
      = ds ++ List.replicate b 0 := by
    rw [List.append_assoc, stripZeros_replicate, stripZeros_of_head _ hh']
  have h2 : leadingZeros (List.replicate a 0 ++ ds ++ List.replicate b 0) = a := by
    rw [List.append_assoc, leadingZeros_replicate a _ hh']
  have h3 : (stripZeros (ds ++ List.replicate b 0).reverse).reverse = ds := by
    rw [List.reverse_append, List.reverse_replicate, stripZeros_replicate,
      stripZeros_of_head _ (by simpa [List.head?_reverse] using hl), List.reverse_reverse]
  unfold mkNumber
  rw [h2]
  cases hs : stripZeros (List.replicate a 0 ++ ds ++ List.replicate b 0) with
  | nil =>
    rw [h1] at hs
    cases ds with
    | nil => exact absurd rfl hne
    | cons d tl => simp at hs
  | cons d tl =>
    simp only []
    rw [← hs, h1, h3]

theorem parseIntPart_digits (ds rest : List Nat) (hd : ∀ d ∈ ds, d < 10) (hne : ds ≠ [])
    (hh : ds.head? ≠ some 0) (hr : ∀ c, rest.head? = some c → isDigit c = false) :
    parseIntPart (digitUnits ds ++ rest) = some (ds, rest) := by
  cases ds with
  | nil => exact absurd rfl hne
  | cons d tl =>
    have hd0 : d < 10 := hd d (by simp)
    have hnz : d ≠ 0 := by simpa using hh
    have hdig : isDigit (d + 48) = true := by
      simp only [isDigit, Bool.and_eq_true, decide_eq_true_eq]
      omega
    have hsp := spanDigits_digitUnits (d :: tl) rest hd hr
    simp only [digitUnits, List.map_cons, List.cons_append] at hsp ⊢
    simp only [parseIntPart, hdig, if_true]
    rw [if_neg (by omega), hsp]

theorem parseFrac_dot (fs rest : List Nat) (hd : ∀ d ∈ fs, d < 10) (hne : fs ≠ [])
    (hr : ∀ c, rest.head? = some c → isDigit c = false) :
    parseFrac (46 :: (digitUnits fs ++ rest)) = some (fs, rest) := by
  simp [parseFrac, spanDigits_digitUnits fs rest hd hr, hne]

theorem parseFrac_skip (rest : List Nat) (h : rest.head? ≠ some 46) :
    parseFrac rest = some ([], rest) := by
  cases rest with
  | nil => rfl
  | cons c r =>
    have : c ≠ 46 := by simpa using h
    simp [parseFrac, this]

theorem parseExp_skip (rest : List Nat) (h1 : rest.head? ≠ some 101)
    (h2 : rest.head? ≠ some 69) : parseExp rest = some (0, rest) := by
  cases rest with
  | nil => rfl
  | cons c r =>
    have h1' : c ≠ 101 := by simpa using h1
    have h2' : c ≠ 69 := by simpa using h2
    simp [parseExp, h1', h2']

theorem parseExp_exponent (e : Int) (rest : List Nat)
    (hr : ∀ c, rest.head? = some c → isDigit c = false) :
    parseExp (101 :: (if 0 < e then 43 else 45) :: (digitUnits (natDigits e.natAbs) ++ rest))
      = some (e, rest) := by
  obtain ⟨hv, hd, hne⟩ := natDigits_spec e.natAbs
  have hsp := spanDigits_digitUnits (natDigits e.natAbs) rest hd hr
  by_cases hpos : 0 < e
  · have hc : (e.natAbs : Int) = e := Int.natAbs_of_nonneg (by omega)
    simp only [parseExp, hpos, if_true, parseExpDigits, hsp, hv, hc]
    simp [hne]
  · have hc : (e.natAbs : Int) = -e := Int.ofNat_natAbs_of_nonpos (by omega)
    simp only [parseExp, hpos, if_false, parseExpDigits, hsp, hv, hc]
    simp [hne]

theorem parseNumber_of_parts (neg : Bool) (r0 r1 r2 r3 ip fp : List Nat) (e : Int)
    (hi : parseIntPart r0 = some (ip, r1)) (hf : parseFrac r1 = some (fp, r2))
    (he : parseExp r2 = some (e, r3)) (h0 : r0.head? ≠ some 45) :
    parseNumber (if neg = true then 45 :: r0 else r0)
      = some (mkNumber neg (ip ++ fp) (ip.length + e), r3) := by
  cases neg with
  | true => simp [parseNumber, hi, hf, he]
  | false => simp [parseNumber, hi, hf, he, h0]

theorem canonical_dec (neg : Bool) (ds : List Nat) (n : Int)
    (h : (JsNumber.dec neg ds n).canonical = true) :
    (∀ d ∈ ds, d < 10) ∧ ds ≠ [] ∧ ds.head? ≠ some 0 ∧ ds.getLast? ≠ some 0 := by
  simp only [JsNumber.canonical, Bool.and_eq_true, List.all_eq_true, decide_eq_true_eq,
    bne_iff_ne, ne_eq, Bool.not_eq_true', List.isEmpty_eq_false_iff_exists_mem] at h
  obtain ⟨⟨⟨h1, h2⟩, h3⟩, x, hx⟩ := h
  exact ⟨h1, List.ne_nil_of_mem hx, h2, h3⟩

theorem digitUnits_append (a b : List Nat) :
    digitUnits (a ++ b) = digitUnits a ++ digitUnits b := by
  simp [digitUnits]

theorem digitUnits_replicate (m : Nat) : digitUnits (List.replicate m 0) = List.replicate m 48 := by
  simp [digitUnits]

/-- The three parts of a number literal printed by `digitsToString`, read back. -/
theorem digitsToString_parts (neg : Bool) (ds : List Nat) (n : Int) (rest : List Nat)
    (hd : ∀ d ∈ ds, d < 10) (hne : ds ≠ []) (hh : ds.head? ≠ some 0)
    (hl : ds.getLast? ≠ some 0) (hr : ∀ c, rest.head? = some c → c = 44 ∨ c = 10) :
    ∃ ip fp e r1 r2,
      parseIntPart (digitsToString ds n ++ rest) = some (ip, r1) ∧
      parseFrac r1 = some (fp, r2) ∧ parseExp r2 = some (e, rest) ∧
      mkNumber neg (ip ++ fp) (ip.length + e) = .dec neg ds n := by
  have hdig : ∀ c, rest.head? = some c → isDigit c = false := by
    intro c hc
    rcases hr c hc with h | h <;> subst h <;> rfl
  have h46 : rest.head? ≠ some 46 := by
    intro hc
    rcases hr 46 hc with h | h <;> omega
  have h101 : rest.head? ≠ some 101 := by
    intro hc
    rcases hr 101 hc with h | h <;> omega
  have h69 : rest.head? ≠ some 69 := by
    intro hc
    rcases hr 69 hc with h | h <;> omega
  unfold digitsToString
  simp only []
  by_cases c1 : (ds.length : Int) ≤ n ∧ n ≤ 21
  · rw [if_pos c1]
    refine ⟨ds ++ List.replicate (n - ds.length).toNat 0, [], 0, rest, rest, ?_, ?_, ?_, ?_⟩
    · rw [← digitUnits_replicate, ← digitUnits_append]
      apply parseIntPart_digits _ _ _ (by simp [hne]) _ hdig
      · intro d hdm
        rcases List.mem_append.mp hdm with h | h
        · exact hd d h
        · have := (List.mem_replicate.mp h).2
          omega
      · cases ds with
        | nil => exact absurd rfl hne
        | cons d tl => simpa using hh
    · exact parseFrac_skip rest h46
    · exact parseExp_skip rest h101 h69
    · have := mkNumber_padded neg 0 (n - ds.length).toNat ds
        (((ds ++ List.replicate (n - ds.length).toNat 0).length : Int) + 0) hne hh hl
      simp only [List.replicate_zero, List.nil_append, List.append_nil] at this ⊢
      rw [this]
      congr 1
      simp only [List.length_append, List.length_replicate]
      omega
  rw [if_neg c1]
  by_cases c2 : 0 < n ∧ n ≤ 21
  · rw [if_pos c2]
    have hlt : n.toNat < ds.length := by omega
    have hpos : 0 < n.toNat := by omega
    refine ⟨ds.take n.toNat, ds.drop n.toNat, 0,
      46 :: (digitUnits (ds.drop n.toNat) ++ rest), rest, ?_, ?_, ?_, ?_⟩
    · rw [show digitUnits (List.take n.toNat ds) ++ 46 :: digitUnits (List.drop n.toNat ds) ++ rest
          = digitUnits (List.take n.toNat ds) ++ (46 :: (digitUnits (List.drop n.toNat ds) ++ rest))
          by simp]
      apply parseIntPart_digits
      · intro d hdm
        exact hd d (List.mem_of_mem_take hdm)
      · intro he
        have := congrArg List.length he
        simp only [List.length_take, List.length_nil] at this
        omega
      · cases ds with
        | nil => exact absurd rfl hne
        | cons d tl =>
          cases hn : n.toNat with
          | zero => omega
          | succ m => simpa using hh
      · intro c hc
        have : c = 46 := by simpa using hc.symm
        subst this
        rfl
    · apply parseFrac_dot _ _ _ _ hdig
      · intro d hdm
        exact hd d (List.mem_of_mem_drop hdm)
      · intro he
        have := congrArg List.length he
        simp only [List.length_drop, List.length_nil] at this
        omega
    · exact parseExp_skip rest h101 h69
    · have := mkNumber_padded neg 0 0 ds (((ds.take n.toNat).length : Int) + 0) hne hh hl
      simp only [List.replicate_zero, List.nil_append, List.append_nil] at this
      rw [List.take_append_drop, this]
      congr 1
      simp only [List.length_take]
      omega
  rw [if_neg c2]
  by_cases c3 : -6 < n ∧ n ≤ 0
  · rw [if_pos c3]
    refine ⟨[0], List.replicate (-n).toNat 0 ++ ds, 0,
      46 :: (digitUnits (List.replicate (-n).toNat 0 ++ ds) ++ rest), rest, ?_, ?_, ?_, ?_⟩
    · simp [parseIntPart, digitUnits]
    · apply parseFrac_dot _ _ _ (by simp [hne]) hdig
      intro d hdm
      rcases List.mem_append.mp hdm with h | h
      · have := (List.mem_replicate.mp h).2
        omega
      · exact hd d h
    · exact parseExp_skip rest h101 h69
    · have := mkNumber_padded neg ((-n).toNat + 1) 0 ds ((([0] : List Nat).length : Int) + 0)
        hne hh hl
      simp only [List.replicate_zero, List.append_nil, List.replicate_succ,
        List.cons_append] at this
      simp only [List.singleton_append]
      rw [this]
      congr 1
      simp only [List.length_singleton]
      omega
  rw [if_neg c3]
  have hd1 : ∀ c, (some 101 : Option Nat) = some c → isDigit c = false := by
    intro c hc
    have : c = 101 := by simpa using hc.symm
    subst this
    rfl
  cases ds with
  | nil => exact absurd rfl hne
  | cons d tl =>
    have hd0 : d < 10 := hd d (by simp)
    have hnz : d ≠ 0 := by simpa using hh
    cases tl with
    | nil =>
      simp only []
      refine ⟨[d], [], n - 1, _, _, ?_, parseFrac_skip _ (by simp),
        parseExp_exponent (n - 1) rest hdig, ?_⟩
      · have := parseIntPart_digits [d]
          (101 :: (if 0 < n - 1 then 43 else 45)
            :: (digitUnits (natDigits (n - 1).natAbs) ++ rest))
          hd (by simp) hh (by simpa using hd1)
        simpa [digitUnits] using this
      · have := mkNumber_padded neg 0 0 [d] ((([d] : List Nat).length : Int) + (n - 1))
          hne hh hl
        simp only [List.replicate_zero, List.nil_append, List.append_nil] at this ⊢
        rw [this]
        congr 1
        simp only [List.length_singleton]
        omega
    | cons d2 tl2 =>
      simp only []
      refine ⟨[d], d2 :: tl2, n - 1,
        46 :: (digitUnits (d2 :: tl2)
          ++ 101 :: (if 0 < n - 1 then 43 else 45)
            :: (digitUnits (natDigits (n - 1).natAbs) ++ rest)),
        101 :: (if 0 < n - 1 then 43 else 45)
            :: (digitUnits (natDigits (n - 1).natAbs) ++ rest),
        ?_, ?_, parseExp_exponent (n - 1) rest hdig, ?_⟩
      · have := parseIntPart_digits [d]
          (46 :: (digitUnits (d2 :: tl2)
            ++ 101 :: (if 0 < n - 1 then 43 else 45)
              :: (digitUnits (natDigits (n - 1).natAbs) ++ rest)))
          (by intro x hx; exact hd x (by simp at hx; simp [hx])) (by simp) (by simpa using hnz)
          (by
            intro c hc
            have : c = 46 := by simpa using hc.symm
            subst this
            rfl)
        simpa [digitUnits] using this
      · apply parseFrac_dot _ _ _ (by simp) (by simpa using hd1)
        intro x hx
        exact hd x (List.mem_cons_of_mem d hx)
      · have := mkNumber_padded neg 0 0 (d :: d2 :: tl2)
          ((([d] : List Nat).length : Int) + (n - 1)) hne hh hl
        simp only [List.replicate_zero, List.nil_append, List.append_nil] at this
        simp only [List.singleton_append]
        rw [this]
        congr 1
        simp only [List.length_singleton]
        omega

theorem parseIntPart_head (r0 : List Nat) (p : List Nat × List Nat)
    (h : parseIntPart r0 = some p) : ∃ c r, r0 = c :: r ∧ 48 ≤ c ∧ c ≤ 57 := by
  cases r0 with
  | nil => simp [parseIntPart] at h
  | cons c r =>
    refine ⟨c, r, rfl, ?_⟩
    by_cases h48 : c = 48
    · omega
    · by_cases hdg : isDigit c = true
      · simpa [isDigit] using hdg
      · simp [parseIntPart, h48, hdg] at h

theorem parseNumber_numberToString (x : JsNumber) (rest : List Nat) (hx : x.canonical = true)
    (hr : ∀ c, rest.head? = some c → c = 44 ∨ c = 10) :
    parseNumber (numberToString x ++ rest) = some (x, rest) := by
  cases x with
  | zero =>
    have h46 : rest.head? ≠ some 46 := by
      intro hc
      rcases hr 46 hc with h | h <;> omega
    have h101 : rest.head? ≠ some 101 := by
      intro hc
      rcases hr 101 hc with h | h <;> omega
    have h69 : rest.head? ≠ some 69 := by
      intro hc
      rcases hr 69 hc with h | h <;> omega
    have := parseNumber_of_parts false (48 :: rest) rest rest rest [0] [] 0
      (by simp [parseIntPart]) (parseFrac_skip rest h46) (parseExp_skip rest h101 h69)
      (by simp)
    simpa [numberToString, mkNumber, stripZeros] using this
  | dec neg ds n =>
    obtain ⟨hd, hne, hh, hl⟩ := canonical_dec neg ds n hx
    obtain ⟨ip, fp, e, r1, r2, hi, hf, he, hm⟩ :=
      digitsToString_parts neg ds n rest hd hne hh hl hr
    have h0 : (digitsToString ds n ++ rest).head? ≠ some 45 := by
      obtain ⟨c, r, hcr, h1, h2⟩ := parseIntPart_head _ _ hi
      rw [hcr]
      simp only [List.head?_cons, ne_eq, Option.some.injEq]
      omega
    have := parseNumber_of_parts neg _ r1 r2 rest ip fp e hi hf he h0
    rw [hm] at this
    rw [← this]
    cases neg <;> simp [numberToString]

theorem numberToString_head (x : JsNumber) (hx : x.canonical = true) :
    ∃ c r, numberToString x = c :: r ∧ (c = 45 ∨ (48 ≤ c ∧ c ≤ 57)) := by
  cases x with
  | zero => exact ⟨48, [], rfl, Or.inr (by omega)⟩
  | dec neg ds n =>
    cases neg with
    | true => exact ⟨45, _, rfl, Or.inl rfl⟩
    | false =>
      obtain ⟨hd, hne, hh, hl⟩ := canonical_dec false ds n hx
      obtain ⟨ip, fp, e, r1, r2, hi, -, -, -⟩ :=
        digitsToString_parts false ds n [] hd hne hh hl (by simp)
      obtain ⟨c, r, hcr, h1, h2⟩ := parseIntPart_head _ _ hi
      refine ⟨c, r, ?_, Or.inr ⟨h1, h2⟩⟩
      simpa [numberToString] using hcr

/-! ### Format and parse: values -/

theorem skipWs_cons_of_not_ws (c : Nat) (r : List Nat) (h : isJsonWs c = false) :
    skipWs (c :: r) = c :: r := by
  simp [skipWs, List.dropWhile_cons, h]

theorem skipWs_spaces (m : Nat) (l : List Nat) : skipWs (List.replicate m 32 ++ l) = skipWs l := by
  induction m with
  | zero => rfl
  | succ m ih =>
    simp only [skipWs] at ih
    simp [skipWs, List.replicate_succ, List.dropWhile_cons, isJsonWs, ih]

theorem skipWs_newline (m : Nat) (l : List Nat) : skipWs (newline m ++ l) = skipWs l := by
  have := skipWs_spaces m l
  simp only [skipWs] at this
  simp [newline, skipWs, List.dropWhile_cons, isJsonWs, this]

theorem parseValue_succ_cons (fuel c : Nat) (r : List Nat) :
    parseValue (fuel + 1) (c :: r) =
      if c = 123 then
        match skipWs r with
        | [] => none
        | d :: r' =>
          if d = 125 then some (.obj [], r')
          else (parseMembers fuel (d :: r')).map fun p => (.obj (mkObject p.1), p.2)
      else if c = 91 then
        match skipWs r with
        | [] => none
        | d :: r' =>
          if d = 93 then some (.arr [], r')
          else (parseElements fuel (d :: r')).map fun p => (.arr p.1, p.2)
      else if c = 34 then (parseString r).map fun p => (.str p.1, p.2)
      else if c = 116 then (expect [114, 117, 101] r).map fun r' => (.bool true, r')
      else if c = 102 then (expect [97, 108, 115, 101] r).map fun r' => (.bool false, r')
      else if c = 110 then (expect [117, 108, 108] r).map fun r' => (.null, r')
      else if c = 45 ∨ isDigit c then (parseNumber (c :: r)).map fun p => (.num p.1, p.2)
      else none := by
  rw [parseValue]

theorem parseElements_succ (fuel : Nat) (input : List Nat) :
    parseElements (fuel + 1) input =
      match parseValue fuel input with
      | none => none
      | some (v, r) =>
        match skipWs r with
        | [] => none
        | c :: r' =>
          if c = 44 then (parseElements fuel (skipWs r')).map fun p => (v :: p.1, p.2)
          else if c = 93 then some ([v], r')
          else none := by
  rw [parseElements]

theorem parseMembers_succ_cons (fuel q : Nat) (r0 : List Nat) :
    parseMembers (fuel + 1) (q :: r0) =
      if q = 34 then
        match parseString r0 with
        | none => none
        | some (k, r1) =>
          match skipWs r1 with
          | [] => none
          | c :: r2 =>
            if c = 58 then
              match parseValue fuel (skipWs r2) with
              | none => none
              | some (v, r3) =>
                match skipWs r3 with
                | [] => none
                | c' :: r4 =>
                  if c' = 44 then
                    (parseMembers fuel (skipWs r4)).map fun p => ((k, v) :: p.1, p.2)
                  else if c' = 125 then some ([(k, v)], r4)
                  else none
            else none
      else none := by
  rw [parseMembers]

theorem setMember_new (k : JsString) (v : Json) (acc : List (JsString × Json))
    (h : ∀ m ∈ acc, m.1 ≠ k) : setMember k v acc = acc ++ [(k, v)] := by
  induction acc with
  | nil => rfl
  | cons a as ih =>
    obtain ⟨k', v'⟩ := a
    have hk : k' ≠ k := h (k', v') (by simp)
    simp only [setMember, hk, if_false, List.cons_append]
    rw [ih (fun m hm => h m (List.mem_cons_of_mem _ hm))]

theorem foldl_setMember (ms : List (JsString × Json)) :
    ∀ acc : List (JsString × Json), List.Pairwise (fun a b => a.1 ≠ b.1) (acc ++ ms) →
      ms.foldl (fun acc m => setMember m.1 m.2 acc) acc = acc ++ ms := by
  induction ms with
  | nil => intro acc _; simp
  | cons m ms ih =>
    intro acc hp
    have hnew : ∀ a ∈ acc, a.1 ≠ m.1 := by
      intro a ha
      have := List.pairwise_append.mp hp
      exact this.2.2 a ha m (by simp)
    simp only [List.foldl_cons]
    rw [setMember_new m.1 m.2 acc hnew, ih]
    · simp
    · simpa using hp

theorem mkObject_of_distinct (ms : List (JsString × Json))
    (h : List.Pairwise (fun a b => a.1 ≠ b.1) ms) : mkObject ms = ms := by
  have := foldl_setMember ms [] (by simpa using h)
  simpa [mkObject] using this

theorem wellFormedMembers_cons (m : JsString × Json) (ms : List (JsString × Json)) :
    wellFormedMembers (m :: ms)
      = (!(ms.any fun m' => m'.1 == m.1) && m.2.wellFormed && wellFormedMembers ms) := by
  rw [wellFormedMembers]

theorem wellFormedElements_cons (x : Json) (xs : List Json) :
    wellFormedElements (x :: xs) = (x.wellFormed && wellFormedElements xs) := by
  rw [wellFormedElements]

theorem distinct_of_wellFormedMembers (ms : List (JsString × Json))
    (h : wellFormedMembers ms = true) : List.Pairwise (fun a b => a.1 ≠ b.1) ms := by
  induction ms with
  | nil => exact List.Pairwise.nil
  | cons m ms ih =>
    rw [wellFormedMembers_cons] at h
    simp only [Bool.and_eq_true, Bool.not_eq_true', List.any_eq_false, beq_iff_eq] at h
    refine List.Pairwise.cons ?_ (ih h.2)
    intro b hb heq
    exact h.1.1 b hb heq.symm

theorem stringify_head (indent : Nat) (v : Json) (hv : v.wellFormed = true) :
    ∃ c r, stringify indent v = c :: r ∧
      (c = 110 ∨ c = 116 ∨ c = 102 ∨ c = 34 ∨ c = 91 ∨ c = 123 ∨ c = 45 ∨ (48 ≤ c ∧ c ≤ 57)) := by
  cases v with
  | null => exact ⟨110, _, by rw [stringify], by omega⟩
  | bool b =>
    cases b with
    | true => exact ⟨116, _, by rw [stringify]; rfl, by omega⟩
    | false => exact ⟨102, _, by rw [stringify]; rfl, by omega⟩
  | num x =>
    have hx : x.canonical = true := by simpa [Json.wellFormed] using hv
    obtain ⟨c, r, h1, h2⟩ := numberToString_head x hx
    exact ⟨c, r, by rw [stringify, h1], by omega⟩
  | str s => exact ⟨34, _, by rw [stringify]; rfl, by omega⟩
  | arr xs =>
    cases xs with
    | nil => exact ⟨91, _, by rw [stringify], by omega⟩
    | cons x xs => exact ⟨91, _, by rw [stringify], by omega⟩
  | obj ms =>
    cases ms with
    | nil => exact ⟨123, _, by rw [stringify], by omega⟩
    | cons m ms => exact ⟨123, _, by rw [stringify], by omega⟩

theorem skipWs_stringify (indent : Nat) (v : Json) (t : List Nat) (hv : v.wellFormed = true) :
    skipWs (stringify indent v ++ t) = stringify indent v ++ t ∧
    ∃ c r, stringify indent v ++ t = c :: r ∧ c ≠ 93 ∧ c ≠ 125 := by
  obtain ⟨c, r, h1, h2⟩ := stringify_head indent v hv
  rw [h1, List.cons_append]
  refine ⟨skipWs_cons_of_not_ws c _ ?_, c, _, rfl, by omega, by omega⟩
  simp only [isJsonWs, Bool.or_eq_false_iff, beq_eq_false_iff_ne, ne_eq]
  omega

theorem parseValue_array (fuel : Nat) (body : List Nat)
    (h : ∃ c r, skipWs body = c :: r ∧ c ≠ 93) :
    parseValue (fuel + 1) (91 :: body)
      = (parseElements fuel (skipWs body)).map fun p => (.arr p.1, p.2) := by
  obtain ⟨c, r, h1, h2⟩ := h
  rw [parseValue_succ_cons]
  simp [h1, h2]

theorem parseValue_object (fuel : Nat) (body : List Nat)
    (h : ∃ c r, skipWs body = c :: r ∧ c ≠ 125) :
    parseValue (fuel + 1) (123 :: body)
      = (parseMembers fuel (skipWs body)).map fun p => (.obj (mkObject p.1), p.2) := by
  obtain ⟨c, r, h1, h2⟩ := h
  rw [parseValue_succ_cons]
  simp [h1, h2]

theorem parseElements_last (fuel : Nat) (input r r' : List Nat) (v : Json)
    (hv : parseValue fuel input = some (v, r)) (hr : skipWs r = 93 :: r') :
    parseElements (fuel + 1) input = some ([v], r') := by
  rw [parseElements_succ, hv]
  simp [hr]

theorem parseElements_more (fuel : Nat) (input r r' : List Nat) (v : Json)
    (hv : parseValue fuel input = some (v, r)) (hr : skipWs r = 44 :: r') :
    parseElements (fuel + 1) input
      = (parseElements fuel (skipWs r')).map fun p => (v :: p.1, p.2) := by
  rw [parseElements_succ, hv]
  simp [hr]

theorem parseMembers_last (fuel : Nat) (k : JsString) (r1 r2 r3 r4 : List Nat) (v : Json)
    (h1 : skipWs r1 = 58 :: r2) (hv : parseValue fuel (skipWs r2) = some (v, r3))
    (h3 : skipWs r3 = 125 :: r4) :
    parseMembers (fuel + 1) (quoteJsonString k ++ r1) = some ([(k, v)], r4) := by
  simp only [quoteJsonString, List.cons_append, List.append_assoc, List.singleton_append]
  rw [parseMembers_succ_cons, parseString_quoteBody]
  simp [h1, hv, h3]

theorem parseMembers_more (fuel : Nat) (k : JsString) (r1 r2 r3 r4 : List Nat) (v : Json)
    (h1 : skipWs r1 = 58 :: r2) (hv : parseValue fuel (skipWs r2) = some (v, r3))
    (h3 : skipWs r3 = 44 :: r4) :
    parseMembers (fuel + 1) (quoteJsonString k ++ r1)
      = (parseMembers fuel (skipWs r4)).map fun p => ((k, v) :: p.1, p.2) := by
  simp only [quoteJsonString, List.cons_append, List.append_assoc, List.singleton_append]
  rw [parseMembers_succ_cons, parseString_quoteBody]
  simp [h1, hv, h3]

theorem skipWs_space (l : List Nat) : skipWs (32 :: l) = skipWs l := by
  simp [skipWs, List.dropWhile_cons, isJsonWs]

theorem stringifyElements_head (indent outer : Nat) (xs : List Json) (t : List Nat) :
    ∀ c, (stringifyElements indent xs ++ (newline outer ++ t)).head? = some c →
      c = 44 ∨ c = 10 := by
  intro c hc
  cases xs with
  | nil =>
    rw [stringifyElements] at hc
    simp only [newline, List.nil_append, List.cons_append, List.head?_cons,
      Option.some.injEq] at hc
    omega
  | cons x xs =>
    rw [stringifyElements] at hc
    simp only [List.cons_append, List.head?_cons, Option.some.injEq] at hc
    omega

theorem stringifyMembers_head (indent outer : Nat) (ms : List (JsString × Json))
    (t : List Nat) :
    ∀ c, (stringifyMembers indent ms ++ (newline outer ++ t)).head? = some c →
      c = 44 ∨ c = 10 := by
  intro c hc
  cases ms with
  | nil =>
    rw [stringifyMembers] at hc
    simp only [newline, List.nil_append, List.cons_append, List.head?_cons,
      Option.some.injEq] at hc
    omega
  | cons m ms =>
    rw [stringifyMembers] at hc
    simp only [List.cons_append, List.head?_cons, Option.some.injEq] at hc
    omega

theorem need_pos (v : Json) : 1 ≤ v.need := by
  cases v <;> simp [Json.need]

mutual
theorem parseValue_stringify (v : Json) (indent : Nat) (rest : List Nat) (fuel : Nat)
    (hv : v.wellFormed = true) (hr : ∀ c, rest.head? = some c → c = 44 ∨ c = 10)
    (hf : v.need ≤ fuel) :
    parseValue fuel (stringify indent v ++ rest) = some (v, rest) := by
  cases fuel with
  | zero =>
    have := need_pos v
    omega
  | succ f =>
    cases v with
    | null =>
      rw [stringify]
      simp [parseValue_succ_cons, expect]
    | bool b =>
      cases b
      · rw [stringify]
        simp [parseValue_succ_cons, expect]
      · rw [stringify]
        simp [parseValue_succ_cons, expect]
    | num x =>
      have hx : x.canonical = true := by simpa [Json.wellFormed] using hv
      obtain ⟨c, r, h1, h2⟩ := numberToString_head x hx
      have hp := parseNumber_numberToString x rest hx hr
      rw [stringify]
      rw [h1, List.cons_append] at hp ⊢
      rw [parseValue_succ_cons, hp]
      have hcd : c = 45 ∨ isDigit c = true := by
        rcases h2 with h | h
        · exact Or.inl h
        · right
          simp only [isDigit, Bool.and_eq_true, decide_eq_true_eq]
          exact h
      rw [if_neg (by omega), if_neg (by omega), if_neg (by omega), if_neg (by omega),
        if_neg (by omega), if_neg (by omega), if_pos hcd]
      rfl
    | str s =>
      rw [stringify, quoteJsonString]
      simp [parseValue_succ_cons, parseString_quoteBody]
    | arr xs =>
      have hne : needElements xs ≤ f := by
        rw [Json.need] at hf
        omega
      have hwf : wellFormedElements xs = true := by
        rw [Json.wellFormed] at hv
        exact hv
      have ih := parseElements_stringify xs (indent + 2) indent rest f hwf hne
      cases xs with
      | nil =>
        rw [stringify]
        simp [parseValue_succ_cons, skipWs_cons_of_not_ws 93 rest rfl]
      | cons x xs =>
        simp only [] at ih
        have hx : x.wellFormed = true := by
          rw [wellFormedElements_cons] at hwf
          simp only [Bool.and_eq_true] at hwf
          exact hwf.1
        rw [stringify]
        simp only [List.cons_append, List.append_assoc, List.singleton_append,
          List.nil_append]
        obtain ⟨hsk, c, r, hcr, h93, -⟩ := skipWs_stringify (indent + 2) x
          (stringifyElements (indent + 2) xs ++ (newline indent ++ 93 :: rest)) hx
        rw [parseValue_array, skipWs_newline, hsk, ih]
        · rfl
        · rw [skipWs_newline, hsk]
          exact ⟨c, r, hcr, h93⟩
    | obj ms =>
      have hne : needMembers ms ≤ f := by
        rw [Json.need] at hf
        omega
      have hwf : wellFormedMembers ms = true := by
        rw [Json.wellFormed] at hv
        exact hv
      have ih := parseMembers_stringify ms (indent + 2) indent rest f hwf hne
      cases ms with
      | nil =>
        rw [stringify]
        simp [parseValue_succ_cons, skipWs_cons_of_not_ws 125 rest rfl]
      | cons m ms =>
        simp only [] at ih
        rw [stringify]
        simp only [List.cons_append, List.append_assoc, List.singleton_append,
          List.nil_append]
        have hq : skipWs (quoteJsonString m.1 ++ (58 :: 32 :: (stringify (indent + 2) m.2
            ++ (stringifyMembers (indent + 2) ms ++ (newline indent ++ 125 :: rest)))))
            = quoteJsonString m.1 ++ (58 :: 32 :: (stringify (indent + 2) m.2
            ++ (stringifyMembers (indent + 2) ms ++ (newline indent ++ 125 :: rest)))) := by
          rw [quoteJsonString, List.cons_append]
          exact skipWs_cons_of_not_ws 34 _ rfl
        rw [parseValue_object, skipWs_newline, hq, ih]
        · simp only [Option.map_some']
          rw [mkObject_of_distinct _ (distinct_of_wellFormedMembers _ hwf)]
        · rw [skipWs_newline, hq, quoteJsonString, List.cons_append]
          exact ⟨34, _, rfl, by omega⟩
theorem parseElements_stringify (xs : List Json) (indent outer : Nat) (rest : List Nat)
    (fuel : Nat) (hxs : wellFormedElements xs = true) (hf : needElements xs ≤ fuel) :
    match xs with
    | [] => True
    | x :: xs' =>
      parseElements fuel (stringify indent x
        ++ (stringifyElements indent xs' ++ (newline outer ++ 93 :: rest)))
        = some (x :: xs', rest) := by
  cases xs with
  | nil => trivial
  | cons x xs =>
    simp only []
    rw [wellFormedElements_cons] at hxs
    simp only [Bool.and_eq_true] at hxs
    rw [needElements] at hf
    cases fuel with
    | zero => omega
    | succ f =>
      have hvx := parseValue_stringify x indent
        (stringifyElements indent xs ++ (newline outer ++ 93 :: rest)) f hxs.1
        (stringifyElements_head indent outer xs (93 :: rest)) (by omega)
      have ih := parseElements_stringify xs indent outer rest f hxs.2 (by omega)
      cases xs with
      | nil =>
        rw [stringifyElements] at hvx ⊢
        simp only [List.nil_append] at hvx ⊢
        exact parseElements_last f _ _ rest x hvx
          (by rw [skipWs_newline]; exact skipWs_cons_of_not_ws 93 rest rfl)
      | cons y ys =>
        simp only [] at ih
        rw [stringifyElements] at hvx ⊢
        simp only [List.cons_append, List.append_assoc] at hvx ⊢
        rw [parseElements_more f _ _ _ x hvx (skipWs_cons_of_not_ws 44 _ rfl),
          skipWs_newline, (skipWs_stringify indent y _ (by
            have := hxs.2
            rw [wellFormedElements_cons] at this
            simp only [Bool.and_eq_true] at this
            exact this.1)).1, ih]
        rfl
theorem parseMembers_stringify (ms : List (JsString × Json)) (indent outer : Nat)
    (rest : List Nat) (fuel : Nat) (hms : wellFormedMembers ms = true)
    (hf : needMembers ms ≤ fuel) :
    match ms with
    | [] => True
    | m :: ms' =>
      parseMembers fuel (quoteJsonString m.1 ++ (58 :: 32 :: (stringify indent m.2
        ++ (stringifyMembers indent ms' ++ (newline outer ++ 125 :: rest)))))
        = some (m :: ms', rest) := by
  cases ms with
  | nil => trivial
  | cons m ms =>
    obtain ⟨k, v⟩ := m
    simp only []
    rw [wellFormedMembers_cons] at hms
    simp only [Bool.and_eq_true] at hms
    rw [needMembers] at hf
    cases fuel with
    | zero => omega
    | succ f =>
      have hvx := parseValue_stringify v indent
        (stringifyMembers indent ms ++ (newline outer ++ 125 :: rest)) f hms.1.2
        (stringifyMembers_head indent outer ms (125 :: rest)) (by simp only [] at hf; omega)
      have ih := parseMembers_stringify ms indent outer rest f hms.2
        (by simp only [] at hf; omega)
      have h1 : ∀ t : List Nat, skipWs (58 :: 32 :: t) = 58 :: 32 :: t :=
        fun t => skipWs_cons_of_not_ws 58 _ rfl
      have h2 : ∀ t : List Nat, skipWs (32 :: (stringify indent v ++ t))
          = stringify indent v ++ t := by
        intro t
        rw [skipWs_space, (skipWs_stringify indent v t hms.1.2).1]
      cases ms with
      | nil =>
        rw [stringifyMembers] at hvx ⊢
        simp only [List.nil_append] at hvx ⊢
        exact parseMembers_last f k _ _ _ rest v (h1 _) (by rw [h2]; exact hvx)
          (by rw [skipWs_newline]; exact skipWs_cons_of_not_ws 125 rest rfl)
      | cons m' ms' =>
        simp only [] at ih
        rw [stringifyMembers] at hvx ⊢
        simp only [List.cons_append, List.append_assoc] at hvx ⊢
        rw [parseMembers_more f k _ _ _ _ v (h1 _) (by rw [h2]; exact hvx)
          (skipWs_cons_of_not_ws 44 _ rfl), skipWs_newline]
        have hq : ∀ t : List Nat, skipWs (quoteJsonString m'.1 ++ t)
            = quoteJsonString m'.1 ++ t := by
          intro t
          rw [quoteJsonString, List.cons_append]
          exact skipWs_cons_of_not_ws 34 _ rfl
        rw [hq, ih]
        rfl
end

theorem stringify_cons_arr (indent : Nat) (x : Json) (xs : List Json) :
    stringify indent (.arr (x :: xs))
      = 91 :: (newline (indent + 2) ++ stringify (indent + 2) x
          ++ stringifyElements (indent + 2) xs ++ newline indent ++ [93]) := by
  rw [stringify]

theorem stringify_cons_obj (indent : Nat) (m : JsString × Json) (ms : List (JsString × Json)) :
    stringify indent (.obj (m :: ms))
      = 123 :: (newline (indent + 2) ++ quoteJsonString m.1
          ++ 58 :: 32 :: stringify (indent + 2) m.2
          ++ stringifyMembers (indent + 2) ms ++ newline indent ++ [125]) := by
  rw [stringify]

mutual
theorem need_le_length (v : Json) (indent : Nat) :
    v.need ≤ (stringify indent v).length + 1 := by
  cases v with
  | null => simp [Json.need]
  | bool b => simp [Json.need]
  | num x => simp [Json.need]
  | str s => simp [Json.need]
  | arr xs =>
    cases xs with
    | nil => rw [Json.need, needElements]; omega
    | cons x xs =>
      have h1 := need_le_length x (indent + 2)
      have h2 := needElements_le_length xs (indent + 2)
      rw [Json.need, needElements, stringify_cons_arr]
      simp only [List.length_cons, List.length_append, newline, List.length_replicate,
        List.length_nil]
      omega
  | obj ms =>
    cases ms with
    | nil => rw [Json.need, needMembers]; omega
    | cons m ms =>
      obtain ⟨k, w⟩ := m
      have h1 := need_le_length w (indent + 2)
      have h2 := needMembers_le_length ms (indent + 2)
      rw [Json.need, needMembers, stringify_cons_obj]
      simp only [List.length_cons, List.length_append, newline, List.length_replicate,
        List.length_nil]
      omega
theorem needElements_le_length (xs : List Json) (indent : Nat) :
    needElements xs ≤ (stringifyElements indent xs).length := by
  cases xs with
  | nil => rw [needElements]; omega
  | cons x xs =>
    have h1 := need_le_length x indent
    have h2 := needElements_le_length xs indent
    rw [needElements, stringifyElements]
    simp only [List.length_cons, List.length_append, newline, List.length_replicate]
    omega
theorem needMembers_le_length (ms : List (JsString × Json)) (indent : Nat) :
    needMembers ms ≤ (stringifyMembers indent ms).length := by
  cases ms with
  | nil => rw [needMembers]; omega
  | cons m ms =>
    obtain ⟨k, w⟩ := m
    have h1 := need_le_length w indent
    have h2 := needMembers_le_length ms indent
    rw [needMembers, stringifyMembers]
    simp only [List.length_cons, List.length_append, newline, List.length_replicate]
    omega
end

theorem isBlank_of_head (c : Nat) (r : List Nat) (h : isTrimSpace c = false) :
    isBlank (c :: r) = false := by
  have h1 : (c :: r).dropWhile isTrimSpace = c :: r := by
    simp [List.dropWhile_cons, h]
  have h2 : ((c :: r).reverse).dropWhile isTrimSpace ≠ [] := by
    intro he
    have := List.dropWhile_eq_nil_iff.mp he c (by simp)
    rw [h] at this
    cases this
  simp only [isBlank, trim, h1, List.isEmpty_cons, Bool.false_or, List.isEmpty_eq_false,
    ne_eq, List.reverse_eq_nil_iff]
  exact h2

theorem jsonParse_jsonStringify (v : Json) (hv : v.wellFormed = true) :
    jsonParse (jsonStringify v) = some v := by
  have hsk := (skipWs_stringify 0 v [] hv).1
  have hp := parseValue_stringify v 0 [] (2 * (stringify 0 v).length + 2) hv (by simp)
    (by have := need_le_length v 0; omega)
  simp only [List.append_nil] at hsk hp
  rw [jsonStringify, jsonParse, hsk, hp]
  rfl

/-- C10: for every JSON-compatible value `v` (numbers in the canonical form
`Number::toString` works on, the keys of each mapping distinct), `formatJson v` is the
serialization of `JSON.stringify` with a two-space gap, it is never blank, `JSON.parse`
accepts it, and `safeJsonParse (formatJson v)` is `v` itself, member for member; so the
result is equivalent to `v` also when the order of mapping keys is ignored. -/
theorem format_parse_roundtrip (v : Json) (hv : v.wellFormed = true) :
    formatJson v = stringify 0 v ∧ isBlank (formatJson v) = false ∧
    jsonParse (formatJson v) = some v ∧ safeJsonParse (formatJson v) = v := by
  have hb : isBlank (formatJson v) = false := by
    obtain ⟨c, r, h1, h2⟩ := stringify_head 0 v hv
    rw [formatJson, jsonStringify, h1]
    apply isBlank_of_head
    simp only [isTrimSpace, Bool.or_eq_false_iff, beq_eq_false_iff_ne, ne_eq,
      Bool.and_eq_false_iff, decide_eq_false_iff_not]
    omega
  have hp : jsonParse (formatJson v) = some v := jsonParse_jsonStringify v hv
  refine ⟨rfl, hb, hp, ?_⟩
  simp [safeJsonParse, hb, hp]

theorem format_parse_roundtrip_witness :
    Json.wellFormed (.obj [(codeUnits "x", .arr [.num (.dec false [1] 1), .str (codeUnits "a")])])
      = true ∧
    formatJson (.obj [(codeUnits "x", .arr [.num (.dec false [1] 1), .str (codeUnits "a")])])
      = codeUnits "\x7b\n  \"x\": [\n    1,\n    \"a\"\n  ]\n\x7d" ∧
    safeJsonParse
        (formatJson (.obj [(codeUnits "x", .arr [.num (.dec false [1] 1), .str (codeUnits "a")])]))
      = .obj [(codeUnits "x", .arr [.num (.dec false [1] 1), .str (codeUnits "a")])] :=
  ⟨rfl, rfl,
    (format_parse_roundtrip
      (.obj [(codeUnits "x", .arr [.num (.dec false [1] 1), .str (codeUnits "a")])]) rfl).2.2.2⟩

/-! ### The recursion bound of `jsonParse` is never reached

Every parser returns a rest that is shorter than its input, so a depth of
`2 * length + 1` is enough for `parseValue`: with more fuel the result is the same. -/

theorem skipWs_length (l : List Nat) : (skipWs l).length ≤ l.length :=
  (List.dropWhile_sublist isJsonWs).length_le

theorem spanDigits_length (l : List Nat) : (spanDigits l).2.length ≤ l.length := by
  induction l with
  | nil => simp [spanDigits]
  | cons c r ih =>
    by_cases h : isDigit c = true
    · simp only [spanDigits, h, if_true, List.length_cons]
      omega
    · simp [spanDigits, h]

theorem expect_length (word input r : List Nat) (h : expect word input = some r) :
    r.length ≤ input.length := by
  unfold expect at h
  split at h
  · simp only [Option.some.injEq] at h
    rw [← h, List.length_drop]
    omega
  · cases h

theorem parseString_length_aux (n : Nat) :
    ∀ (input : List Nat) (p : JsString × List Nat), input.length ≤ n →
      parseString input = some p → p.2.length < input.length := by
  induction n with
  | zero =>
    intro input p hn h
    have : input = [] := List.length_eq_zero.mp (by omega)
    subst this
    simp [parseString] at h
  | succ n ih =>
    intro input p hn h
    cases input with
    | nil => simp [parseString] at h
    | cons c r =>
      have hr : r.length ≤ n := by simpa using hn
      rw [parseString_cons] at h
      by_cases h34 : c = 34
      · rw [if_pos h34] at h
        simp only [Option.some.injEq] at h
        rw [← h]
        simp
      rw [if_neg h34] at h
      by_cases h92 : c = 92
      · rw [if_pos h92] at h
        cases r with
        | nil => cases h
        | cons e r' =>
          simp only [] at h
          have hr' : r'.length ≤ n := by simp at hr; omega
          by_cases hu : e = 117
          · rw [if_pos hu] at h
            match r', h, hr' with
            | [], h, _ => cases h
            | [_], h, _ => cases h
            | [_, _], h, _ => cases h
            | [_, _, _], h, _ => cases h
            | h1 :: h2 :: h3 :: h4 :: r'', h, hr' =>
              simp only [] at h
              split at h
              · simp only [Option.map_eq_some'] at h
                obtain ⟨q, hq, hp⟩ := h
                have := ih r'' q (by simp at hr'; omega) hq
                rw [← hp]
                simp only [List.length_cons]
                omega
              · cases h
          · rw [if_neg hu] at h
            split at h
            · simp only [Option.map_eq_some'] at h
              obtain ⟨q, hq, hp⟩ := h
              have := ih r' q hr' hq
              rw [← hp]
              simp only [List.length_cons]
              omega
            · cases h
      rw [if_neg h92] at h
      by_cases hlt : c < 32
      · rw [if_pos hlt] at h
        cases h
      rw [if_neg hlt] at h
      simp only [Option.map_eq_some'] at h
      obtain ⟨q, hq, hp⟩ := h
      have := ih r q hr hq
      rw [← hp]
      simp only [List.length_cons]
      omega

theorem parseString_length (input : List Nat) (p : JsString × List Nat)
    (h : parseString input = some p) : p.2.length < input.length :=
  parseString_length_aux input.length input p (Nat.le_refl _) h

theorem parseIntPart_length (input : List Nat) (p : List Nat × List Nat)
    (h : parseIntPart input = some p) : p.2.length < input.length := by
  cases input with
  | nil => simp [parseIntPart] at h
  | cons c r =>
    by_cases h48 : c = 48
    · simp only [parseIntPart, h48, if_true, Option.some.injEq] at h
      rw [← h]
      simp
    · by_cases hd : isDigit c = true
      · simp only [parseIntPart, h48, if_false, hd, if_true, Option.some.injEq] at h
        have := spanDigits_length r
        rw [← h]
        simp only [spanDigits, hd, if_true, List.length_cons]
        omega
      · simp [parseIntPart, h48, hd] at h

theorem parseFrac_length (input : List Nat) (p : List Nat × List Nat)
    (h : parseFrac input = some p) : p.2.length ≤ input.length := by
  cases input with
  | nil =>
    simp only [parseFrac, Option.some.injEq] at h
    rw [← h]
  | cons c r =>
    by_cases h46 : c = 46
    · simp only [parseFrac, h46, if_true] at h
      split at h
      · cases h
      · simp only [Option.some.injEq] at h
        have := spanDigits_length r
        rw [← h]
        simp only [List.length_cons]
        omega
    · simp only [parseFrac, h46, if_false, Option.some.injEq] at h
      rw [← h]

theorem parseExpDigits_length (negative : Bool) (input : List Nat) (p : Int × List Nat)
    (h : parseExpDigits negative input = some p) : p.2.length ≤ input.length := by
  unfold parseExpDigits at h
  split at h
  · cases h
  · simp only [Option.some.injEq] at h
    rw [← h]
    exact spanDigits_length input

theorem parseExp_length (input : List Nat) (p : Int × List Nat)
    (h : parseExp input = some p) : p.2.length ≤ input.length := by
  cases input with
  | nil =>
    simp only [parseExp, Option.some.injEq] at h
    rw [← h]
  | cons c r =>
    by_cases he : c = 101 ∨ c = 69
    · simp only [parseExp, he, if_true] at h
      cases r with
      | nil => cases h
      | cons s r' =>
        simp only [] at h
        split at h
        · have := parseExpDigits_length _ _ _ h
          simp only [List.length_cons]
          omega
        · split at h
          · have := parseExpDigits_length _ _ _ h
            simp only [List.length_cons]
            omega
          · have := parseExpDigits_length _ _ _ h
            simp only [List.length_cons] at this ⊢
            omega
    · simp only [parseExp, he, if_false, Option.some.injEq] at h
      rw [← h]

theorem parseNumber_length (input : List Nat) (p : JsNumber × List Nat)
    (h : parseNumber input = some p) : p.2.length < input.length := by
  unfold parseNumber at h
  simp only [] at h
  have htail : (if input.head? = some 45 then input.tail else input).length ≤ input.length := by
    split
    · simp
    · exact Nat.le_refl _
  cases hi : parseIntPart (if input.head? = some 45 then input.tail else input) with
  | none => simp [hi] at h
  | some a =>
    have h1 := parseIntPart_length _ _ hi
    cases hf : parseFrac a.2 with
    | none => simp [hi, hf] at h
    | some b =>
      have h2 := parseFrac_length _ _ hf
      cases he : parseExp b.2 with
      | none => simp [hi, hf, he] at h
      | some c =>
        have h3 := parseExp_length _ _ he
        simp only [hi, hf, he, Option.some.injEq] at h
        rw [← h]
        simp only []
        omega

theorem parseValue_nil (fuel : Nat) : parseValue fuel [] = none := by
  cases fuel <;> simp [parseValue]

theorem parseMembers_nil (fuel : Nat) : parseMembers fuel [] = none := by
  cases fuel <;> simp [parseMembers]

theorem parse_progress (f : Nat) :
    (∀ input p, parseValue f input = some p → p.2.length < input.length) ∧
    (∀ input p, parseElements f input = some p → p.2.length < input.length) ∧
    (∀ input p, parseMembers f input = some p → p.2.length < input.length) := by
  induction f with
  | zero =>
    refine ⟨?_, ?_, ?_⟩ <;> intro input p h
    · simp [parseValue] at h
    · simp [parseElements] at h
    · simp [parseMembers] at h
  | succ f ih =>
    obtain ⟨ihv, ihe, ihm⟩ := ih
    refine ⟨?_, ?_, ?_⟩
    · intro input p h
      cases input with
      | nil => rw [parseValue_nil] at h; cases h
      | cons c r =>
        rw [parseValue_succ_cons] at h
        have hws := skipWs_length r
        simp only [List.length_cons]
        split at h
        · split at h
          · cases h
          · rename_i d r' hsk
            rw [hsk] at hws
            simp only [List.length_cons] at hws
            split at h
            · simp only [Option.some.injEq] at h
              rw [← h]
              simp only []
              omega
            · simp only [Option.map_eq_some'] at h
              obtain ⟨q, hq, hp⟩ := h
              have := ihm _ _ hq
              rw [← hp]
              simp only [List.length_cons] at this ⊢
              omega
        · split at h
          · split at h
            · cases h
            · rename_i d r' hsk
              rw [hsk] at hws
              simp only [List.length_cons] at hws
              split at h
              · simp only [Option.some.injEq] at h
                rw [← h]
                simp only []
                omega
              · simp only [Option.map_eq_some'] at h
                obtain ⟨q, hq, hp⟩ := h
                have := ihe _ _ hq
                rw [← hp]
                simp only [List.length_cons] at this ⊢
                omega
          · split at h
            · simp only [Option.map_eq_some'] at h
              obtain ⟨q, hq, hp⟩ := h
              have := parseString_length _ _ hq
              rw [← hp]
              simp only []
              omega
            · split at h
              · simp only [Option.map_eq_some'] at h
                obtain ⟨q, hq, hp⟩ := h
                have := expect_length _ _ _ hq
                rw [← hp]
                simp only []
                omega
              · split at h
                · simp only [Option.map_eq_some'] at h
                  obtain ⟨q, hq, hp⟩ := h
                  have := expect_length _ _ _ hq
                  rw [← hp]
                  simp only []
                  omega
                · split at h
                  · simp only [Option.map_eq_some'] at h
                    obtain ⟨q, hq, hp⟩ := h
                    have := expect_length _ _ _ hq
                    rw [← hp]
                    simp only []
                    omega
                  · split at h
                    · simp only [Option.map_eq_some'] at h
                      obtain ⟨q, hq, hp⟩ := h
                      have := parseNumber_length _ _ hq
                      rw [← hp]
                      simp only [List.length_cons] at this ⊢
                      omega
                    · cases h
    · intro input p h
      rw [parseElements_succ] at h
      split at h
      · cases h
      · rename_i v r hv
        have h1 := ihv _ _ hv
        simp only [] at h1
        have hws := skipWs_length r
        split at h
        · cases h
        · rename_i c r' hsk
          rw [hsk] at hws
          simp only [List.length_cons] at hws
          split at h
          · simp only [Option.map_eq_some'] at h
            obtain ⟨q, hq, hp⟩ := h
            have h2 := ihe _ _ hq
            have h3 := skipWs_length r'
            rw [← hp]
            simp only []
            omega
          · split at h
            · simp only [Option.some.injEq] at h
              rw [← h]
              simp only []
              omega
            · cases h
    · intro input p h
      cases input with
      | nil => rw [parseMembers_nil] at h; cases h
      | cons q0 r0 =>
        rw [parseMembers_succ_cons] at h
        simp only [List.length_cons]
        split at h
        · split at h
          · cases h
          · rename_i k r1 hk
            have h1 := parseString_length _ _ hk
            simp only [] at h1
            have hws1 := skipWs_length r1
            split at h
            · cases h
            · rename_i c r2 hsk1
              rw [hsk1] at hws1
              simp only [List.length_cons] at hws1
              split at h
              · split at h
                · cases h
                · rename_i v r3 hv
                  have h2 := ihv _ _ hv
                  simp only [] at h2
                  have hws2 := skipWs_length r2
                  have hws3 := skipWs_length r3
                  split at h
                  · cases h
                  · rename_i c' r4 hsk3
                    rw [hsk3] at hws3
                    simp only [List.length_cons] at hws3
                    split at h
                    · simp only [Option.map_eq_some'] at h
                      obtain ⟨q, hq, hp⟩ := h
                      have h4 := ihm _ _ hq
                      have h5 := skipWs_length r4
                      rw [← hp]
                      simp only []
                      omega
                    · split at h
                      · simp only [Option.some.injEq] at h
                        rw [← h]
                        simp only []
                        omega
                      · cases h
              · cases h
        · cases h

theorem parse_stable (f : Nat) :
    (∀ input, 2 * input.length + 1 ≤ f → parseValue (f + 1) input = parseValue f input) ∧
    (∀ input, 2 * input.length + 2 ≤ f → parseElements (f + 1) input = parseElements f input) ∧
    (∀ input, 2 * input.length + 2 ≤ f → parseMembers (f + 1) input = parseMembers f input) := by
  induction f with
  | zero =>
    refine ⟨?_, ?_, ?_⟩ <;> intro input h <;> omega
  | succ f ih =>
    obtain ⟨ihv, ihe, ihm⟩ := ih
    obtain ⟨pv, -, -⟩ := parse_progress f
    refine ⟨?_, ?_, ?_⟩
    · intro input hf
      cases input with
      | nil => rw [parseValue_nil, parseValue_nil]
      | cons c r =>
        rw [parseValue_succ_cons, parseValue_succ_cons]
        have hws := skipWs_length r
        simp only [List.length_cons] at hf
        cases hsk : skipWs r with
        | nil => rfl
        | cons d r' =>
          rw [hsk] at hws
          have k1 : parseMembers (f + 1) (d :: r') = parseMembers f (d :: r') :=
            ihm _ (by omega)
          have k2 : parseElements (f + 1) (d :: r') = parseElements f (d :: r') :=
            ihe _ (by omega)
          simp only [k1, k2]
    · intro input hf
      rw [parseElements_succ, parseElements_succ, ihv input (by omega)]
      cases hv : parseValue f input with
      | none => rfl
      | some p =>
        obtain ⟨v, r⟩ := p
        have h1 := pv _ _ hv
        simp only [] at h1 ⊢
        have hws := skipWs_length r
        cases hsk : skipWs r with
        | nil => rfl
        | cons c r' =>
          rw [hsk] at hws
          simp only [List.length_cons] at hws
          have h2 := skipWs_length r'
          have k : parseElements (f + 1) (skipWs r') = parseElements f (skipWs r') :=
            ihe _ (by omega)
          simp only [k]
    · intro input hf
      cases input with
      | nil => rw [parseMembers_nil, parseMembers_nil]
      | cons q r0 =>
        rw [parseMembers_succ_cons, parseMembers_succ_cons]
        simp only [List.length_cons] at hf
        cases hk : parseString r0 with
        | none => rfl
        | some p1 =>
          obtain ⟨k, r1⟩ := p1
          have h1 := parseString_length _ _ hk
          simp only [] at h1 ⊢
          have hws1 := skipWs_length r1
          cases hsk1 : skipWs r1 with
          | nil => rfl
          | cons c r2 =>
            rw [hsk1] at hws1
            simp only [List.length_cons] at hws1
            have hws2 := skipWs_length r2
            simp only []
            rw [ihv (skipWs r2) (by omega)]
            cases hv : parseValue f (skipWs r2) with
            | none => rfl
            | some p3 =>
              obtain ⟨v, r3⟩ := p3
              have h3 := pv _ _ hv
              simp only [] at h3 ⊢
              have hws3 := skipWs_length r3
              cases hsk3 : skipWs r3 with
              | nil => rfl
              | cons c' r4 =>
                rw [hsk3] at hws3
                simp only [List.length_cons] at hws3
                have hws4 := skipWs_length r4
                have k4 : parseMembers (f + 1) (skipWs r4) = parseMembers f (skipWs r4) :=
                  ihm _ (by omega)
                simp only [k4]

/-- More fuel than `2 * length + 1` does not change what `parseValue` returns: the bound
in `jsonParse` never cuts a parse short. -/
theorem parseValue_fuel (input : List Nat) (extra : Nat) :
    parseValue (2 * input.length + 1 + extra) input = parseValue (2 * input.length + 1) input := by
  induction extra with
  | zero => rfl
  | succ e ih =>
    rw [← ih]
    exact (parse_stable (2 * input.length + 1 + e)).1 input (by omega)

/-- The result of `jsonParse` is the one any larger recursion bound gives. -/
theorem jsonParse_fuel (text : JsString) (fuel : Nat) (h : 2 * text.length + 2 ≤ fuel) :
    jsonParse text =
      match parseValue fuel (skipWs text) with
      | none => none
      | some (v, rest) => if skipWs rest = [] then some v else none := by
  have hws := skipWs_length text
  have e1 : 2 * text.length + 2
      = 2 * (skipWs text).length + 1 + (2 * text.length + 2 - (2 * (skipWs text).length + 1)) := by
    omega
  have e2 : fuel = 2 * (skipWs text).length + 1 + (fuel - (2 * (skipWs text).length + 1)) := by
    omega
  unfold jsonParse
  rw [e1, parseValue_fuel, e2, parseValue_fuel]

/-! ### Every value `JSON.parse` returns is well formed -/

theorem stripZeros_head (l : List Nat) : (stripZeros l).head? ≠ some 0 := by
  have := List.head?_dropWhile_not (· == 0) l
  intro h
  simp only [stripZeros] at h
  rw [h] at this
  simp at this

theorem stripZeros_getLast (l : List Nat) (h : l.getLast? ≠ some 0) :
    (stripZeros l).getLast? ≠ some 0 := by
  intro hs
  obtain ⟨ys, hys⟩ := List.getLast?_eq_some_iff.mp hs
  obtain ⟨t, ht⟩ := List.dropWhile_suffix (l := l) (· == 0)
  apply h
  rw [List.getLast?_eq_some_iff]
  refine ⟨t ++ ys, ?_⟩
  rw [← ht]
  simp only [stripZeros] at hys
  rw [hys, List.append_assoc]

theorem stripZeros_subset (l : List Nat) : ∀ d ∈ stripZeros l, d ∈ l :=
  fun _ hd => (List.dropWhile_sublist _).subset hd

theorem mkNumber_canonical (neg : Bool) (ds : List Nat) (pos : Int)
    (hd : ∀ d ∈ ds, d < 10) : (mkNumber neg ds pos).canonical = true := by
  unfold mkNumber
  cases hs : stripZeros ds with
  | nil => rfl
  | cons d ds' =>
    simp only []
    have hd0 : d ≠ 0 := by
      have := stripZeros_head ds
      rw [hs] at this
      simpa using this
    have hne : stripZeros (d :: ds').reverse ≠ [] := by
      intro he
      have := List.dropWhile_eq_nil_iff.mp he d (by simp)
      simp only [beq_iff_eq] at this
      exact hd0 this
    have h1 := stripZeros_head (d :: ds').reverse
    have h2 := stripZeros_getLast (d :: ds').reverse (by simpa using hd0)
    have hall : ∀ x ∈ (stripZeros (d :: ds').reverse).reverse, x < 10 := by
      intro x hx
      have hx1 := stripZeros_subset _ x (List.mem_reverse.mp hx)
      have hx2 : x ∈ stripZeros ds := by
        rw [hs]
        exact List.mem_reverse.mp hx1
      exact hd x (stripZeros_subset ds x hx2)
    simp only [JsNumber.canonical, Bool.and_eq_true, List.all_eq_true, decide_eq_true_eq,
      bne_iff_ne, ne_eq, Bool.not_eq_true', List.isEmpty_eq_false, List.reverse_eq_nil_iff,
      List.head?_reverse, List.getLast?_reverse]
    exact ⟨⟨⟨hall, h2⟩, h1⟩, hne⟩

theorem spanDigits_lt (l : List Nat) : ∀ d ∈ (spanDigits l).1, d < 10 := by
  induction l with
  | nil => simp [spanDigits]
  | cons c r ih =>
    by_cases h : isDigit c = true
    · intro d hdm
      simp only [spanDigits, h, if_true, List.mem_cons] at hdm
      rcases hdm with hdm | hdm
      · simp only [isDigit, Bool.and_eq_true, decide_eq_true_eq] at h
        omega
      · exact ih d hdm
    · simp [spanDigits, h]

theorem parseNumber_canonical (input : List Nat) (p : JsNumber × List Nat)
    (h : parseNumber input = some p) : p.1.canonical = true := by
  unfold parseNumber at h
  simp only [] at h
  cases hi : parseIntPart (if input.head? = some 45 then input.tail else input) with
  | none => simp [hi] at h
  | some a =>
    cases hf : parseFrac a.2 with
    | none => simp [hi, hf] at h
    | some b =>
      cases he : parseExp b.2 with
      | none => simp [hi, hf, he] at h
      | some c =>
        simp only [hi, hf, he, Option.some.injEq] at h
        rw [← h]
        apply mkNumber_canonical
        intro d hdm
        rcases List.mem_append.mp hdm with hdm | hdm
        · cases hin : (if input.head? = some 45 then input.tail else input) with
          | nil => simp [hin, parseIntPart] at hi
          | cons c0 r0 =>
            rw [hin] at hi
            by_cases h48 : c0 = 48
            · simp only [parseIntPart, h48, if_true, Option.some.injEq] at hi
              rw [← hi] at hdm
              simp only [List.mem_singleton] at hdm
              omega
            · by_cases hdg : isDigit c0 = true
              · simp only [parseIntPart, h48, if_false, hdg, if_true, Option.some.injEq] at hi
                rw [← hi] at hdm
                exact spanDigits_lt _ d hdm
              · simp [parseIntPart, h48, hdg] at hi
        · cases ha : a.2 with
          | nil =>
            rw [ha] at hf
            simp only [parseFrac, Option.some.injEq] at hf
            rw [← hf] at hdm
            simp at hdm
          | cons c1 r1 =>
            rw [ha] at hf
            by_cases h46 : c1 = 46
            · simp only [parseFrac, h46, if_true] at hf
              split at hf
              · cases hf
              · simp only [Option.some.injEq] at hf
                rw [← hf] at hdm
                exact spanDigits_lt _ d hdm
            · simp only [parseFrac, h46, if_false, Option.some.injEq] at hf
              rw [← hf] at hdm
              simp at hdm

theorem mem_setMember (k : JsString) (v : Json) (acc : List (JsString × Json)) :
    ∀ m ∈ setMember k v acc, m = (k, v) ∨ m ∈ acc := by
  induction acc with
  | nil =>
    intro m hm
    simp only [setMember, List.mem_singleton] at hm
    exact Or.inl hm
  | cons a as ih =>
    obtain ⟨k', v'⟩ := a
    intro m hm
    by_cases hk : k' = k
    · simp only [setMember, hk, if_true, List.mem_cons] at hm
      rcases hm with hm | hm
      · exact Or.inl hm
      · exact Or.inr (List.mem_cons_of_mem _ hm)
    · simp only [setMember, hk, if_false, List.mem_cons] at hm
      rcases hm with hm | hm
      · exact Or.inr (by simp [hm])
      · rcases ih m hm with h | h
        · exact Or.inl h
        · exact Or.inr (List.mem_cons_of_mem _ h)

theorem pairwise_setMember (k : JsString) (v : Json) (acc : List (JsString × Json))
    (h : List.Pairwise (fun a b => a.1 ≠ b.1) acc) :
    List.Pairwise (fun a b => a.1 ≠ b.1) (setMember k v acc) := by
  induction acc with
  | nil => simp [setMember]
  | cons a as ih =>
    obtain ⟨k', v'⟩ := a
    obtain ⟨h1, h2⟩ := List.pairwise_cons.mp h
    by_cases hk : k' = k
    · simp only [setMember, hk, if_true]
      refine List.Pairwise.cons ?_ h2
      intro b hb
      have := h1 b hb
      rw [hk] at this
      exact this
    · simp only [setMember, hk, if_false]
      refine List.Pairwise.cons ?_ (ih h2)
      intro b hb
      rcases mem_setMember k v as b hb with hb | hb
      · rw [hb]
        exact hk
      · exact h1 b hb

theorem mkObject_invariant (ms : List (JsString × Json)) :
    ∀ acc : List (JsString × Json), List.Pairwise (fun a b => a.1 ≠ b.1) acc →
      (∀ m ∈ acc, m.2.wellFormed = true) → (∀ m ∈ ms, m.2.wellFormed = true) →
      List.Pairwise (fun a b => a.1 ≠ b.1) (ms.foldl (fun acc m => setMember m.1 m.2 acc) acc) ∧
      ∀ m ∈ ms.foldl (fun acc m => setMember m.1 m.2 acc) acc, m.2.wellFormed = true := by
  induction ms with
  | nil => intro acc h1 h2 _; exact ⟨h1, h2⟩
  | cons m ms ih =>
    intro acc h1 h2 h3
    simp only [List.foldl_cons]
    apply ih _ (pairwise_setMember m.1 m.2 acc h1)
    · intro x hx
      rcases mem_setMember m.1 m.2 acc x hx with hx | hx
      · rw [hx]
        exact h3 m (by simp)
      · exact h2 x hx
    · intro x hx
      exact h3 x (List.mem_cons_of_mem _ hx)

theorem wellFormedMembers_of (ms : List (JsString × Json))
    (h1 : List.Pairwise (fun a b => a.1 ≠ b.1) ms) (h2 : ∀ m ∈ ms, m.2.wellFormed = true) :
    wellFormedMembers ms = true := by
  induction ms with
  | nil => rw [wellFormedMembers]
  | cons m ms ih =>
    obtain ⟨h3, h4⟩ := List.pairwise_cons.mp h1
    rw [wellFormedMembers_cons, ih h4 (fun x hx => h2 x (List.mem_cons_of_mem _ hx)),
      h2 m (by simp)]
    simp only [Bool.and_true, Bool.not_eq_true', List.any_eq_false, beq_iff_eq]
    intro x hx heq
    exact h3 x hx heq.symm

theorem wellFormed_mkObject (ms : List (JsString × Json))
    (h : ∀ m ∈ ms, m.2.wellFormed = true) : (Json.obj (mkObject ms)).wellFormed = true := by
  obtain ⟨h1, h2⟩ := mkObject_invariant ms [] List.Pairwise.nil (by simp) h
  rw [Json.wellFormed]
  exact wellFormedMembers_of _ h1 h2

theorem parse_wellFormed (f : Nat) :
    (∀ input p, parseValue f input = some p → p.1.wellFormed = true) ∧
    (∀ input p, parseElements f input = some p → wellFormedElements p.1 = true) ∧
    (∀ input p, parseMembers f input = some p → ∀ m ∈ p.1, m.2.wellFormed = true) := by
  induction f with
  | zero =>
    refine ⟨?_, ?_, ?_⟩ <;> intro input p h
    · simp [parseValue] at h
    · simp [parseElements] at h
    · simp [parseMembers] at h
  | succ f ih =>
    obtain ⟨ihv, ihe, ihm⟩ := ih
    refine ⟨?_, ?_, ?_⟩
    · intro input p h
      cases input with
      | nil => rw [parseValue_nil] at h; cases h
      | cons c r =>
        rw [parseValue_succ_cons] at h
        split at h
        · split at h
          · cases h
          · split at h
            · simp only [Option.some.injEq] at h
              rw [← h]
              rfl
            · simp only [Option.map_eq_some'] at h
              obtain ⟨q, hq, hp⟩ := h
              rw [← hp]
              exact wellFormed_mkObject _ (ihm _ _ hq)
        · split at h
          · split at h
            · cases h
            · split at h
              · simp only [Option.some.injEq] at h
                rw [← h]
                rfl
              · simp only [Option.map_eq_some'] at h
                obtain ⟨q, hq, hp⟩ := h
                rw [← hp]
                simp only []
                rw [Json.wellFormed]
                exact ihe _ _ hq
          · split at h
            · simp only [Option.map_eq_some'] at h
              obtain ⟨q, hq, hp⟩ := h
              rw [← hp]
              rfl
            · split at h
              · simp only [Option.map_eq_some'] at h
                obtain ⟨q, hq, hp⟩ := h
                rw [← hp]
                rfl
              · split at h
                · simp only [Option.map_eq_some'] at h
                  obtain ⟨q, hq, hp⟩ := h
                  rw [← hp]
                  rfl
                · split at h
                  · simp only [Option.map_eq_some'] at h
                    obtain ⟨q, hq, hp⟩ := h
                    rw [← hp]
                    rfl
                  · split at h
                    · simp only [Option.map_eq_some'] at h
                      obtain ⟨q, hq, hp⟩ := h
                      rw [← hp]
                      simp only []
                      rw [Json.wellFormed]
                      exact parseNumber_canonical _ _ hq
                    · cases h
    · intro input p h
      rw [parseElements_succ] at h
      split at h
      · cases h
      · rename_i v r hv
        have h1 := ihv _ _ hv
        simp only [] at h1
        split at h
        · cases h
        · split at h
          · simp only [Option.map_eq_some'] at h
            obtain ⟨q, hq, hp⟩ := h
            rw [← hp]
            simp only []
            rw [wellFormedElements_cons, h1, ihe _ _ hq]
            rfl
          · split at h
            · simp only [Option.some.injEq] at h
              rw [← h]
              simp only []
              rw [wellFormedElements_cons, h1, wellFormedElements]
              rfl
            · cases h
    · intro input p h
      cases input with
      | nil => rw [parseMembers_nil] at h; cases h
      | cons q0 r0 =>
        rw [parseMembers_succ_cons] at h
        split at h
        · split at h
          · cases h
          · split at h
            · cases h
            · split at h
              · split at h
                · cases h
                · rename_i v r3 hv
                  have h2 := ihv _ _ hv
                  simp only [] at h2
                  split at h
                  · cases h
                  · split at h
                    · simp only [Option.map_eq_some'] at h
                      obtain ⟨q, hq, hp⟩ := h
                      rw [← hp]
                      intro m hm
                      simp only [List.mem_cons] at hm
                      rcases hm with hm | hm
                      · rw [hm]
                        exact h2
                      · exact ihm _ _ hq m hm
                    · split at h
                      · simp only [Option.some.injEq] at h
                        rw [← h]
                        intro m hm
                        simp only [List.mem_singleton] at hm
                        rw [hm]
                        exact h2
                      · cases h
              · cases h
        · cases h

/-- Every value `JSON.parse` returns is well formed, so the values the script obtains from
a response body are among those the round trip is proved for. -/
theorem jsonParse_wellFormed (text : JsString) (v : Json) (h : jsonParse text = some v) :
    v.wellFormed = true := by
  unfold jsonParse at h
  split at h
  · cases h
  · rename_i w rest hp
    split at h
    · simp only [Option.some.injEq] at h
      rw [← h]
      exact (parse_wellFormed _).1 _ _ hp
    · cases h

end Chaldeas
